import Mathlib

/-!
Verification of the incremental reconciliation engine of the PM-Copilot
repository, a shallow embedding of `Scripts/fetch_linear_updates_since_last_sync.py`
(and, for the status-document update, also of
`Scripts/fetch_notion_incremental_updates.py`).

Text is modelled at the `List Char` level (Lean `String` is a structure
wrapping `List Char`), with hand-rolled structural-recursive versions of the
Python string operations used by the scripts, so that everything is
executable and kernel-reducible.  Timestamps are abstract integers; the
ISO-8601 parsing/printing pair of the script is passed in as a pair of
abstract functions, since no claim depends on the concrete textual format.
-/

namespace PMSync

/-! ## Python string primitives -/

/-- Whitespace as recognised by Python `str.strip` / the regex class `\s`
(ASCII part: space, tab, newline, carriage return, vertical tab, form feed). -/
def pyIsSpace (c : Char) : Bool :=
  (c == ' ') || (c == '\t') || (c == '\n') || (c == '\r') || (c == '\x0b') || (c == '\x0c')

/-- Line-break characters honoured by Python `str.splitlines` (the common
ones; the exotic unicode breaks \x1c-\x1e, \x85, U+2028/U+2029 do not occur
in the artefacts of these scripts). -/
def isLineBreak (c : Char) : Bool := (c == '\n') || (c == '\r')

/-- Python `str.lstrip()`. -/
def lstripC (l : List Char) : List Char := l.dropWhile pyIsSpace

/-- Python `str.rstrip()`. -/
def rstripC (l : List Char) : List Char := (l.reverse.dropWhile pyIsSpace).reverse

/-- Python `str.strip()`. -/
def stripC (l : List Char) : List Char := rstripC (lstripC l)

/-- Boolean prefix test on character lists (Python `str.startswith`). -/
def isPrefixOfC : List Char → List Char → Bool
  | [], _ => true
  | _ :: _, [] => false
  | a :: as, b :: bs => a == b && isPrefixOfC as bs

/-- Boolean suffix test on character lists. -/
def isSuffixOfC (p l : List Char) : Bool := isPrefixOfC p.reverse l.reverse

/-- Does `sep` occur as a contiguous substring of `l`? -/
def containsSeq (sep : List Char) : List Char → Bool
  | [] => isPrefixOfC sep []
  | c :: cs => isPrefixOfC sep (c :: cs) || containsSeq sep cs

/-- Worker for `splitSeq`: `acc` is the current token, reversed, and `skip`
counts separator characters still to be consumed after a match (consuming
one list element per step keeps the recursion structural).  Mirrors the
left-to-right, non-overlapping scan of Python `str.split(sep)`. -/
def splitSeqGo (sep : List Char) : List Char → Nat → List Char → List (List Char)
  | [], _, acc => [acc.reverse]
  | _ :: cs, skip + 1, acc => splitSeqGo sep cs skip acc
  | c :: cs, 0, acc =>
    if isPrefixOfC sep (c :: cs) then
      acc.reverse :: splitSeqGo sep cs (sep.length - 1) []
    else
      splitSeqGo sep cs 0 (c :: acc)

/-- Python `str.split(sep)` for a nonempty separator `sep`. -/
def splitSeq (sep : List Char) (l : List Char) : List (List Char) :=
  splitSeqGo sep l 0 []

/-- Python `str.split(sep, 1)` restricted to the information the script uses:
`some (before, after)` around the first occurrence of `sep`, or `none` when
`sep` does not occur (in which case the script's 2-tuple unpacking raises). -/
def splitFirstSeq (sep : List Char) : List Char → Option (List Char × List Char)
  | [] => none
  | c :: cs =>
    if isPrefixOfC sep (c :: cs) then
      some ([], cs.drop (sep.length - 1))
    else
      (splitFirstSeq sep cs).map (fun p => (c :: p.1, p.2))

/-- Worker for `splitLinesC`: a line break ends the current line, and a
break at the very end of the text produces no trailing empty line (Python
`str.splitlines` semantics). -/
def splitLinesGo : List Char → List Char → List (List Char)
  | [], acc => [acc.reverse]
  | '\r' :: '\n' :: rest, acc =>
    acc.reverse :: (if rest.isEmpty then [] else splitLinesGo rest [])
  | '\r' :: rest, acc =>
    acc.reverse :: (if rest.isEmpty then [] else splitLinesGo rest [])
  | '\n' :: rest, acc =>
    acc.reverse :: (if rest.isEmpty then [] else splitLinesGo rest [])
  | c :: rest, acc => splitLinesGo rest (c :: acc)

/-- Python `str.splitlines` (newline-variants `\n`, `\r`, `\r\n`). -/
def splitLinesC : List Char → List (List Char)
  | [] => []
  | l => splitLinesGo l []

/-- Python `re.split(r"[-_]", s)`: split on every single occurrence of a
character of the class. -/
def splitPredC (f : Char → Bool) : List Char → List (List Char)
  | [] => [[]]
  | c :: cs =>
    if f c then [] :: splitPredC f cs
    else
      match splitPredC f cs with
      | [] => [[c]]
      | p :: ps => (c :: p) :: ps

/-- Value of a nonempty string of decimal digits (Python `int(...)`). -/
def digitsToNat (l : List Char) : Nat :=
  l.foldl (fun a c => 10 * a + (c.toNat - '0'.toNat)) 0

/-! ## Sort keys (`get_numeric_identifier`) -/

/-- Python `re.search(r"\d+", part)` followed by `int(...)`: the first
maximal run of decimal digits in `part`, as a number. -/
def firstDigitRun : List Char → Option Nat
  | [] => none
  | c :: cs =>
    if c.isDigit then some (digitsToNat (c :: cs.takeWhile Char.isDigit))
    else firstDigitRun cs

/-- Scan the parts in the given order and return the first numeric hit
(the script iterates `reversed(parts)`). -/
def findNumericPart : List (List Char) → Option Nat
  | [] => none
  | p :: ps =>
    match firstDigitRun p with
    | some v => some v
    | none => findNumericPart ps

/-- Embedding of `get_numeric_identifier` (fetch_linear_updates_since_last_sync.py,
lines 182-190): split the identifier on `-`/`_`, take the first part, scanning
from the right, that contains a digit run, and fall back to `int(1e12)`. -/
def get_numeric_identifier (identifier : String) : Nat :=
  if identifier = "" then 10 ^ 12
  else
    match findNumericPart ((splitPredC (fun c => (c == '-') || (c == '_')) identifier.data).reverse) with
    | some v => v
    | none => 10 ^ 12

/-! ## Entries, merge, batches -/

/-- Embedding of the `IssueEntry` dataclass: a stable identifier plus the
fully rendered markdown body (which, by construction, ends with the batch
delimiter `"\n---\n\n"`). -/
structure IssueEntry where
  identifier : String
  content : String
deriving DecidableEq, Repr

/-- The `numeric_id` property of `IssueEntry`. -/
def IssueEntry.numericId (e : IssueEntry) : Nat := get_numeric_identifier e.identifier

/-- Identifier sequence of a list of entries. -/
def entriesIds (l : List IssueEntry) : List String := l.map (fun e => e.identifier)

/-- Sort-key sequence of a list of entries. -/
def entriesKeys (l : List IssueEntry) : List Nat := l.map (fun e => e.numericId)

/-- Embedding of `insert_new_entry` (lines 325-331): linear scan inserting the
new entry before the first existing entry with a strictly larger numeric id
(hence after all entries with a smaller-or-equal key). -/
def insert_new_entry : List IssueEntry → IssueEntry → List IssueEntry
  | [], e => [e]
  | x :: xs, e =>
    if e.numericId < x.numericId then e :: x :: xs
    else x :: insert_new_entry xs e

/-- An incoming record as delivered by the fetch layer: identifier, rendered
markdown body (`format_issue` output) and its source-update timestamp. -/
structure Incoming where
  identifier : String
  content : String
  updatedAt : Int
deriving DecidableEq, Repr

/-- Replace (in place) the content of the entry holding `ident`.  The script
does this through `entry_map[identifier].content = ...` where `entry_map` is
built by a dict comprehension, so with duplicated identifiers the object of
the LAST occurrence is the one mutated; this function mirrors that. -/
def replaceContent : List IssueEntry → String → String → List IssueEntry
  | [], _, _ => []
  | e :: es, ident, c =>
    if ident ∈ entriesIds es then e :: replaceContent es ident c
    else if e.identifier = ident then { e with content := c } :: es
    else e :: es

/-- Running state of the per-issue loop of `main` (lines 443-463). -/
structure MergeState where
  entries : List IssueEntry
  touched : List String
  newIds : List String
  latest : Int
deriving Repr

/-- One iteration of the per-issue loop of `main` (lines 447-463): bump the
`latest_updated_at` watermark candidate, then either replace an existing
entry's body in place (recording it in `touched_identifiers`) or insert a
genuinely new entry at its sorted position (recording it in
`new_identifiers`). -/
def mergeStep (s : MergeState) (r : Incoming) : MergeState :=
  let latest' := if r.updatedAt > s.latest then r.updatedAt else s.latest
  if r.identifier ∈ entriesIds s.entries then
    { entries := replaceContent s.entries r.identifier r.content
      touched := s.touched ++ [r.identifier]
      newIds := s.newIds
      latest := latest' }
  else
    { entries := insert_new_entry s.entries ⟨r.identifier, r.content⟩
      touched := s.touched
      newIds := s.newIds ++ [r.identifier]
      latest := latest' }

/-- The whole merge loop: fold `mergeStep` over the incoming records in
arrival order, starting from the baseline entries and the previous sync
timestamp. -/
def mergeAll (lastSync : Int) (baseline : List IssueEntry) (incoming : List Incoming) : MergeState :=
  incoming.foldl mergeStep ⟨baseline, [], [], lastSync⟩

/-- The batch capacity `BATCH_SIZE` (line 32). -/
def BATCH_SIZE : Nat := 50

/-- Worker for `build_batches`: `acc` is the current batch, reversed, and
`k` the capacity remaining in it (invariant `acc.length + k = BATCH_SIZE`). -/
def buildBatchesGo : List IssueEntry → List IssueEntry → Nat → List (List IssueEntry)
  | [], acc, _ => if acc.isEmpty then [] else [acc.reverse]
  | e :: rest, acc, 0 => acc.reverse :: buildBatchesGo rest [e] (BATCH_SIZE - 1)
  | e :: rest, acc, k + 1 => buildBatchesGo rest (e :: acc) k

/-- Embedding of `build_batches` (lines 334-339).  The script sends entry
number `idx` (0-based) to bucket `idx // BATCH_SIZE + 1` of a dict, appending
in order; since the map `idx ↦ idx // BATCH_SIZE + 1` is monotone and
constant exactly on the index ranges `[BATCH_SIZE*k, BATCH_SIZE*(k+1))`, the
buckets, listed in key order `1, 2, ...`, are exactly the consecutive chunks
of `BATCH_SIZE` entries (see `build_batches_eq_chunksTD`).  Element `i` of
the result is batch number `i+1`. -/
def build_batches (l : List IssueEntry) : List (List IssueEntry) :=
  buildBatchesGo l [] BATCH_SIZE

/-- Take/drop characterisation of the chunking, convenient for proofs. -/
def chunksTD (l : List IssueEntry) : List (List IssueEntry) :=
  if l.isEmpty then []
  else l.take BATCH_SIZE :: chunksTD (l.drop BATCH_SIZE)
  termination_by l.length
  decreasing_by
    simp only [List.length_drop]
    have hl : l ≠ [] := by simp_all [List.isEmpty_iff]
    have hp : 0 < l.length := List.length_pos.mpr hl
    simp [BATCH_SIZE]
    omega

/-! ## Rendering and parsing batch files -/

/-- The fixed batch delimiter `"\n---\n\n"`. -/
def delimChars : List Char := ['\n', '-', '-', '-', '\n', '\n']

/-- Embedding of `render_batch` (lines 342-350): header line, generation
line, separator, then each member's body concatenated in order.  The
generation timestamp (`datetime.now(...).strftime(...)`) is passed in as the
abstract string `nowStr`. -/
def render_batch (teamName nowStr : String) (batchIndex : Nat) (batchEntries : List IssueEntry) : String :=
  "# " ++ teamName ++ " - Issue Batch " ++ toString batchIndex ++ "\n\n" ++
    "_Generated: " ++ nowStr ++ "_\n\n" ++ "---\n\n" ++
    String.join (batchEntries.map (fun e => e.content))

/-- Per-block parsing inside `load_existing_entries` (lines 301-313): strip
the block, skip it when empty or when its first line (after stripping) does
not start with `"# "`, otherwise extract the identifier (text between
`"# "` and the first `":"`, stripped) and store the stripped block with the
delimiter re-appended as the entry content.  `lines[0]` of
`stripped.splitlines()` is the maximal line-break-free prefix of the
stripped block. -/
def parseBlock (block : List Char) : Option IssueEntry :=
  let stripped := stripC block
  if stripped.isEmpty then none
  else
    let firstLine := stripC (stripped.takeWhile (fun c => !isLineBreak c))
    if isPrefixOfC ['#', ' '] firstLine then
      let ident := stripC ((firstLine.drop 2).takeWhile (fun c => c != ':'))
      some ⟨String.mk ident, String.mk (stripped ++ delimChars)⟩
    else none

/-- Parsing of one batch file inside `load_existing_entries` (lines 292-313):
split off the header at the first delimiter (`none`, i.e. the
`LinearSyncError(f"Unexpected format in {path}")`, when the delimiter does
not occur at all), then split the remainder on the delimiter into blocks and
parse each block. -/
def parseBatchFileText (text : String) : Option (List IssueEntry) :=
  match splitFirstSeq delimChars text.data with
  | none => none
  | some (_, remainder) =>
    some ((splitSeq delimChars remainder).filterMap parseBlock)

/-- Error taxonomy of the run, as named by the design spec.  The script
raises a single `LinearSyncError` with distinguishing messages; the
constructors record the raise site:
`statusDocMissingLabel` ↔ "Could not locate `label` in status doc." /
"Failed to locate `label` in status doc.",
`statusDocMissingHeading` ↔ "Could not locate '## ...' section.",
`malformedBatch n` ↔ "Unexpected format in {path of batch n}". -/
inductive SyncError where
  | statusDocMissingLabel : SyncError
  | statusDocMissingHeading : SyncError
  | malformedBatch : Nat → SyncError
deriving DecidableEq, Repr

instance {α : Type} [DecidableEq α] : DecidableEq (Except SyncError α) := fun a b =>
  match a, b with
  | .error x, .error y =>
    if h : x = y then .isTrue (by rw [h]) else .isFalse (fun hc => h (Except.error.inj hc))
  | .ok x, .ok y =>
    if h : x = y then .isTrue (by rw [h]) else .isFalse (fun hc => h (Except.ok.inj hc))
  | .error _, .ok _ => .isFalse (fun hc => Except.noConfusion hc)
  | .ok _, .error _ => .isFalse (fun hc => Except.noConfusion hc)

/-- Stable insertion (by batch number) used to model
`sorted(batch_files, key=...)` in `load_existing_entries` (lines 282-285). -/
def insertByNum (p : Nat × String) : List (Nat × String) → List (Nat × String)
  | [] => [p]
  | q :: qs => if p.1 < q.1 then p :: q :: qs else q :: insertByNum p qs

/-- Sort the existing batch files by the number embedded in their filename. -/
def sortFilesByNum (files : List (Nat × String)) : List (Nat × String) :=
  files.foldl (fun acc p => insertByNum p acc) []

/-- Worker of `load_existing_entries` over the files in ascending-number
order: fail on the first malformed file, otherwise accumulate the ordered
entries and the per-batch identifier lists. -/
def loadAllGo : List (Nat × String) → Except SyncError (List IssueEntry × List (Nat × List String))
  | [] => .ok ([], [])
  | (n, text) :: rest =>
    match parseBatchFileText text with
    | none => .error (.malformedBatch n)
    | some es =>
      match loadAllGo rest with
      | .error e => .error e
      | .ok (entries, assoc) => .ok (es ++ entries, (n, entriesIds es) :: assoc)

/-- Embedding of `load_existing_entries` (lines 278-322): read every batch
file in filename-number order, producing the full ordered entry list and the
per-batch-number identifier sequences (the `identifiers` field of the
`batches` dict). -/
def loadAll (files : List (Nat × String)) : Except SyncError (List IssueEntry × List (Nat × List String)) :=
  loadAllGo (sortFilesByNum files)

/-! ## Batch diffing (`main`, lines 465-497) -/

/-- Lookup in the `existing_ids_by_batch` dict. -/
def lookupNum : List (Nat × List String) → Nat → Option (List String)
  | [], _ => none
  | (m, ids) :: rest, n => if m = n then some ids else lookupNum rest n

/-- The rewrite condition of `main` (lines 476-479): the new member-id
sequence differs from the old batch at the same index, or some member of the
new batch was touched or newly added this run. -/
abbrev batchChanged (oldAssoc : List (Nat × List String)) (touched newIds : List String)
    (n : Nat) (b : List IssueEntry) : Prop :=
  entriesIds b ≠ (lookupNum oldAssoc n).getD [] ∨
    ∃ i ∈ entriesIds b, i ∈ touched ∨ i ∈ newIds

/-- Worker of the `changed_batches` loop, iterating the new batches in
number order starting at `n`. -/
def changedBatchesGo (oldAssoc : List (Nat × List String)) (touched newIds : List String) :
    Nat → List (List IssueEntry) → List (Nat × List IssueEntry)
  | _, [] => []
  | n, b :: bs =>
    if batchChanged oldAssoc touched newIds n b then
      (n, b) :: changedBatchesGo oldAssoc touched newIds (n + 1) bs
    else
      changedBatchesGo oldAssoc touched newIds (n + 1) bs

/-- The `changed_batches` computation of `main` (lines 472-480): the new
batches (with 1-based numbers) selected for rewriting. -/
def changedBatches (newBatches : List (List IssueEntry)) (oldAssoc : List (Nat × List String))
    (touched newIds : List String) : List (Nat × List IssueEntry) :=
  changedBatchesGo oldAssoc touched newIds 1 newBatches

/-- The stale-batch deletion of `main` (lines 492-497): every existing batch
number strictly above the new batch count is unlinked. -/
def deleteNums (oldAssoc : List (Nat × List String)) (newCount : Nat) : List Nat :=
  (oldAssoc.map Prod.fst).filter (fun n => decide (n > newCount))

/-! ## The status-document timestamp pattern -/

/-- The characters matched by the regex class `[0-9T:\-]`. -/
def tsChar (c : Char) : Bool := c.isDigit || (c == 'T') || (c == ':') || (c == '-')

/-- The literal `label_token`, i.e. `` f"`{label}`" ``. -/
def labelToken (label : String) : List Char := '`' :: label.data ++ ['`']

/-- The literal head of the pattern `` rf"`{label}`:\s*([0-9T:\-]+Z)" ``. -/
def tsPatternHead (label : String) : List Char := '`' :: label.data ++ ['`', ':']

/-- Attempt to match the watermark pattern at the start of `l`; on success
return the captured timestamp group and the number of characters consumed.
Greedy `\s*` and `[0-9T:\-]+` need no backtracking here: the class contains
no whitespace and no `Z`, so a match exists iff the maximal runs are
followed by `Z`. -/
def matchTsAt (label : String) (l : List Char) : Option (List Char × Nat) :=
  let pre := tsPatternHead label
  if isPrefixOfC pre l then
    let l1 := l.drop pre.length
    let sp := l1.takeWhile pyIsSpace
    let l2 := l1.drop sp.length
    let run := l2.takeWhile tsChar
    if run.isEmpty then none
    else
      match l2.drop run.length with
      | 'Z' :: _ => some (run, pre.length + sp.length + run.length + 1)
      | _ => none
  else none

/-- Python `re.search(pattern, text)` for the watermark pattern: scan every
start position left to right, returning the first captured group. -/
def searchTs (label : String) : List Char → Option (List Char)
  | [] => none
  | c :: cs =>
    match matchTsAt label (c :: cs) with
    | some (g, _) => some g
    | none => searchTs label cs

/-- Locating the previous watermark in the status document, as in
`parse_status_doc` (lines 193-204) and `load_status_timestamp` of the Notion
script: `re.search` of the pattern over the whole document text. -/
def locateWatermark (label : String) (text : String) : Option String :=
  (searchTs label text.data).map String.mk

/-- Worker for `subTsLine`: `skip` counts the characters of a replaced match
still to be consumed (one list element per step, keeping the recursion
structural). -/
def subTsGo (label : String) (repl : List Char) : List Char → Nat → List Char
  | [], _ => []
  | _ :: cs, skip + 1 => subTsGo label repl cs skip
  | c :: cs, 0 =>
    match matchTsAt label (c :: cs) with
    | some g => repl ++ subTsGo label repl cs (g.2 - 1)
    | none => c :: subTsGo label repl cs 0

/-- Python `re.sub(pattern, repl, line)`: replace every (non-overlapping,
left-to-right) match of the watermark pattern by `repl`. -/
def subTsLine (label : String) (repl : List Char) (l : List Char) : List Char :=
  subTsGo label repl l 0

/-! ## Status-document update -/

/-- The Linear watermark field label (`timestamp_label` default). -/
def linearLabel : String := "lastSyncTimestamp"

/-- The Linear summary section heading. -/
def linearHeading : String := "## Daily Summaries"

/-- The Notion incremental watermark field label (`TIMESTAMP_LABEL`). -/
def notionLabel : String := "lastIncrementalSyncTimestamp"

/-- The Notion summary section heading. -/
def notionHeading : String := "## Incremental Summaries"

/-- The replacement text `` f"`{label}`: {new_ts_str}" `` of the `re.sub`
call in both `update_status_doc` functions. -/
def replText (label : String) (newTs : String) : List Char :=
  tsPatternHead label ++ ' ' :: newTs.data

/-- Does a line contain the `label_token` substring (Python `in`)? -/
def lineHasToken (label : String) (line : String) : Bool :=
  containsSeq (labelToken label) line.data

/-- The watermark-line rewrite loop of `update_status_doc` (Linear lines
361-372, Notion lines 262-276): find the first line containing the label
token, apply `re.sub` to that line only, and fail when no line contains the
token (`for ... else: raise`). -/
def subFirstTokenLine (label : String) (newTs : String) : List String → Option (List String)
  | [] => none
  | l :: ls =>
    if lineHasToken label l then
      some (String.mk (subTsLine label (replText label newTs) l.data) :: ls)
    else
      (subFirstTokenLine label newTs ls).map (fun ls2 => l :: ls2)

/-- The `lines.index(heading)` lookup: split the document at the first line
equal to the heading, `none` (the raised `StatusDocError`) when absent. -/
def splitAtHeading (heading : String) : List String → Option (List String × List String)
  | [] => none
  | l :: ls =>
    if l = heading then some ([], ls)
    else (splitAtHeading heading ls).map (fun p => (l :: p.1, p.2))

/-- Python `line.strip() == ""` — a blank line. -/
def isBlankLine (line : String) : Bool := (stripC line.data).isEmpty

/-- Python `line.strip().startswith("- ")`. -/
def bulletAfterStrip (line : String) : Bool := isPrefixOfC ['-', ' '] (stripC line.data)

/-- Python `line.lstrip().startswith("- ")`. -/
def bulletAfterLstrip (line : String) : Bool := isPrefixOfC ['-', ' '] (lstripC line.data)

/-- The Linear section edit (lines 379-398), applied to the lines after the
heading: skip blank lines; if the next line is a bulleted entry, overwrite it
with the new summary line, then drop the immediately following bulleted
lines and then the following blank lines; otherwise insert the summary line
at this position. -/
def linearSectionInsert (summaryLine : String) (post : List String) : List String :=
  let blanks := post.takeWhile (fun l => isBlankLine l)
  let after := post.dropWhile (fun l => isBlankLine l)
  blanks ++
    match after with
    | [] => [summaryLine]
    | x :: rest =>
      if bulletAfterStrip x then
        summaryLine ::
          ((rest.dropWhile (fun l => !isBlankLine l && bulletAfterLstrip l)).dropWhile
            (fun l => isBlankLine l))
      else summaryLine :: x :: rest

/-- Embedding of the Linear `update_status_doc` (lines 353-400) on the
document's line list: rewrite the watermark line, locate the summary
heading, and edit the section; the written file is the joined lines. -/
def linearUpdateStatusDoc (docLines : List String) (newTs : String) (summaryLine : String) :
    Except SyncError (List String) :=
  match subFirstTokenLine linearLabel newTs docLines with
  | none => .error .statusDocMissingLabel
  | some lines1 =>
    match splitAtHeading linearHeading lines1 with
    | none => .error .statusDocMissingHeading
    | some (pre, post) => .ok (pre ++ linearHeading :: linearSectionInsert summaryLine post)

/-- The Notion placeholder line. -/
def noneYetPlaceholder : String := "_None yet_"

/-- The Notion section edit (`fetch_notion_incremental_updates.py`, lines
285-294): skip blank lines; replace a `_None yet_` placeholder, but merely
INSERT the new summary line in front of an existing bulleted entry (and in
front of anything else), retaining previous entries. -/
def notionSectionInsert (summaryLine : String) (post : List String) : List String :=
  let blanks := post.takeWhile (fun l => isBlankLine l)
  let after := post.dropWhile (fun l => isBlankLine l)
  blanks ++
    match after with
    | [] => [summaryLine]
    | x :: rest =>
      if String.mk (stripC x.data) = noneYetPlaceholder then summaryLine :: rest
      else if bulletAfterStrip x then summaryLine :: x :: rest
      else summaryLine :: x :: rest

/-- Embedding of the Notion `update_status_doc`
(`fetch_notion_incremental_updates.py`, lines 259-296). -/
def notionUpdateStatusDoc (docLines : List String) (newTs : String) (summaryLine : String) :
    Except SyncError (List String) :=
  match subFirstTokenLine notionLabel newTs docLines with
  | none => .error .statusDocMissingLabel
  | some lines1 =>
    match splitAtHeading notionHeading lines1 with
    | none => .error .statusDocMissingHeading
    | some (pre, post) => .ok (pre ++ notionHeading :: notionSectionInsert summaryLine post)

/-! ## Summary line (`summarize_changes`, lines 403-424) -/

/-- Stable ascending insertion used to model Python `sorted` on strings
(lexicographic by code point). -/
def insertSortedStr (a : String) : List String → List String
  | [] => [a]
  | b :: bs => if a < b then a :: b :: bs else b :: insertSortedStr a bs

/-- Python `sorted` on strings. -/
def sortStrings (l : List String) : List String := l.foldr insertSortedStr []

/-- Python `", ".join`. -/
def joinCommaSep : List String → String
  | [] => ""
  | [s] => s
  | s :: rest => s ++ ", " ++ joinCommaSep rest

/-- The `display` string for a group of identifiers: the first six in sorted
order, with an ellipsis marker when there are more. -/
def displayIds (ids : List String) : String :=
  joinCommaSep ((sortStrings ids).take 6) ++ (if ids.length > 6 then ", …" else "")

/-- The repository-relative path of batch file `n` (under the default
`output/Linear` directory). -/
def batchRelPath (n : Nat) : String :=
  "output/Linear/Issues-Batch-" ++ toString n ++ ".md"

/-- Embedding of `summarize_changes` (lines 403-424); `todayStr` stands for
`datetime.now(timezone.utc).strftime("%Y-%m-%d")`. -/
def summarize_changes (todayStr : String) (updates newIssues : List String)
    (rewrittenNums : List Nat) : String :=
  let parts :=
    (if updates.isEmpty then [] else
      [toString updates.length ++ " updated (" ++ displayIds updates ++ ")"]) ++
    (if newIssues.isEmpty then [] else
      [toString newIssues.length ++ " new (" ++ displayIds newIssues ++ ")"])
  let parts := if parts.isEmpty then ["no changes"] else parts
  let filesPart :=
    if rewrittenNums.isEmpty then ""
    else " → touched " ++ joinCommaSep (rewrittenNums.map batchRelPath)
  "- " ++ todayStr ++ ": " ++ joinCommaSep parts ++ filesPart

/-! ## The run (`main`, lines 427-505) -/

/-- File-system effects of a run, in program order.  A `writeBatch` records
the batch number, its member entries and the rendered file content; a
`deleteBatch` records an `unlink`; a `writeStatus` records the final status
document write. -/
inductive FileOp where
  | writeBatch : Nat → List IssueEntry → String → FileOp
  | deleteBatch : Nat → FileOp
  | writeStatus : String → FileOp
deriving DecidableEq, Repr

/-- Python `"\n".join(lines) + "\n"` of `update_status_doc`. -/
def joinLinesNl : List String → String
  | [] => "\n"
  | [s] => s ++ "\n"
  | s :: rest => s ++ "\n" ++ joinLinesNl rest

/-- Disk contents at the identifier level: batch number ↦ member-identifier
sequence (as recovered by the parser), `none` when no such file exists. -/
def applyOp (disk : Nat → Option (List String)) : FileOp → Nat → Option (List String)
  | .writeBatch n b _, m => if m = n then some (entriesIds b) else disk m
  | .deleteBatch n, m => if m = n then none else disk m
  | .writeStatus _, m => disk m

/-- Replay a list of file operations over a disk state. -/
def applyOps (disk : Nat → Option (List String)) (ops : List FileOp) : Nat → Option (List String) :=
  ops.foldl applyOp disk

/-- Embedding of the reconciliation core of `main` (lines 440-505), from the
point where the status doc is parsed and the baseline is loaded: merge the
incoming records (already rendered by `format_issue` in the fetch layer),
rebuild the batches, write the changed ones, unlink the stale ones, and
update the status document; the batch writes and deletions happen BEFORE the
status-document update, reproducing the script's effect order.  `formatTs`
abstracts `format_iso_timestamp`; `teamName`, `todayStr`, `nowStr` are the
configured team name and the two clock strings; `now` is the clock at the
`max(latest_updated_at, datetime.now(...))` step.  Returns the file
operations performed, and on success the persisted watermark timestamp. -/
def runCore (formatTs : Int → String) (teamName todayStr nowStr : String)
    (lastSync : Int) (entries : List IssueEntry) (oldAssoc : List (Nat × List String))
    (statusText : String) (incoming : List Incoming) (now : Int) :
    List FileOp × Except SyncError Int :=
  let ms := mergeAll lastSync entries incoming
  let newBatches := build_batches ms.entries
  let changed := changedBatches newBatches oldAssoc ms.touched ms.newIds
  let writes := changed.map (fun p => FileOp.writeBatch p.1 p.2 (render_batch teamName nowStr p.1 p.2))
  let dels := (deleteNums oldAssoc newBatches.length).map FileOp.deleteBatch
  let summary := summarize_changes todayStr ms.touched ms.newIds (changed.map Prod.fst)
  let finalTs := max ms.latest now
  match linearUpdateStatusDoc ((splitLinesC statusText.data).map String.mk) (formatTs finalTs) summary with
  | .error e => (writes ++ dels, .error e)
  | .ok outLines =>
    (writes ++ dels ++ [FileOp.writeStatus (joinLinesNl outLines)], .ok finalTs)

/-- The run: parse the status doc (fatal when the watermark pattern is
absent), load the existing batch files (fatal on a malformed one), then the
reconciliation core above. -/
def runMain (parseTs : String → Int) (formatTs : Int → String)
    (teamName todayStr nowStr : String)
    (files : List (Nat × String)) (statusText : String)
    (incoming : List Incoming) (now : Int) :
    List FileOp × Except SyncError Int :=
  match locateWatermark linearLabel statusText with
  | none => ([], .error .statusDocMissingLabel)
  | some raw =>
    match loadAll files with
    | .error e => ([], .error e)
    | .ok (entries, oldAssoc) =>
      runCore formatTs teamName todayStr nowStr (parseTs raw) entries oldAssoc
        statusText incoming now

/-- The status document as the line list the update functions operate on. -/
def statusLines (statusText : String) : List String :=
  (splitLinesC statusText.data).map String.mk

/-- Is this operation a batch-file write? -/
def FileOp.isWriteBatch : FileOp → Bool
  | .writeBatch _ _ _ => true
  | _ => false

/-- Is this operation a batch-file deletion? -/
def FileOp.isDeleteBatch : FileOp → Bool
  | .deleteBatch _ => true
  | _ => false

/-- Is this operation the status-document write? -/
def FileOp.isWriteStatus : FileOp → Bool
  | .writeStatus _ => true
  | _ => false

/-- The pure per-run watermark advance: fold the incoming `updated_at`
values into the previous watermark, then floor at `now`. -/
def advanceTs (prev : Int) (incoming : List Incoming) (now : Int) : Int :=
  max (incoming.foldl (fun a r => max a r.updatedAt) prev) now

/-- Worker for `batchAssocOf`: number the batches starting at `n`. -/
def batchAssocGo (n : Nat) : List (List IssueEntry) → List (Nat × List String)
  | [] => []
  | b :: bs => (n, entriesIds b) :: batchAssocGo (n + 1) bs

/-- The per-batch identifier association a well-formed baseline produces:
batch `i+1` holds the identifiers of the `i`-th chunk.  A baseline satisfies
the batch invariant exactly when loading its files yields this association
for the loaded entry list. -/
def batchAssocOf (l : List IssueEntry) : List (Nat × List String) :=
  batchAssocGo 1 (build_batches l)

/-- Canonical shape of a stored entry body: the stripped block followed by
the delimiter, with a `"# <identifier>: ..."` first line whose identifier
contains no colon or line break and is itself stripped, and no occurrence of
the delimiter inside the block.  `load_existing_entries` always produces
contents of this shape. -/
def CanonicalEntry (e : IssueEntry) : Prop :=
  ∃ s rest, e.content.data = s ++ delimChars ∧ stripC s = s ∧
    containsSeq delimChars s = false ∧
    s = '#' :: ' ' :: (e.identifier.data ++ ':' :: rest) ∧
    (∀ c ∈ e.identifier.data, c ≠ ':' ∧ isLineBreak c = false) ∧
    stripC e.identifier.data = e.identifier.data

/-- Entries sorted (non-strictly) by their numeric sort key. -/
abbrev sortedByKey (l : List IssueEntry) : Prop := List.Sorted (· ≤ ·) (entriesKeys l)

/-- Invariant of the merge loop relative to the baseline. -/
def MergeInv (base : List IssueEntry) (s : MergeState) : Prop :=
  sortedByKey s.entries ∧ (entriesIds s.entries).Nodup ∧
    s.entries.length = base.length + s.newIds.length ∧
    s.newIds.Nodup ∧
    (∀ x ∈ s.newIds, x ∈ entriesIds s.entries ∧ x ∉ entriesIds base) ∧
    (∀ x ∈ entriesIds base, x ∈ entriesIds s.entries)

/-! ## Lemmas: chunking -/

theorem chunksTD_nil : chunksTD [] = [] := by
  rw [chunksTD]
  rfl

theorem chunksTD_cons (e : IssueEntry) (l : List IssueEntry) :
    chunksTD (e :: l) = (e :: l).take BATCH_SIZE :: chunksTD ((e :: l).drop BATCH_SIZE) := by
  rw [chunksTD]
  rfl

theorem take_batch_cons (e : IssueEntry) (rest : List IssueEntry) :
    (e :: rest).take BATCH_SIZE = e :: rest.take (BATCH_SIZE - 1) := rfl

theorem drop_batch_cons (e : IssueEntry) (rest : List IssueEntry) :
    (e :: rest).drop BATCH_SIZE = rest.drop (BATCH_SIZE - 1) := rfl

theorem buildBatchesGo_spec (l : List IssueEntry) :
    ∀ (acc : List IssueEntry) (k : Nat), acc ≠ [] ∨ l ≠ [] →
      buildBatchesGo l acc k = (acc.reverse ++ l.take k) :: chunksTD (l.drop k) := by
  induction l with
  | nil =>
    intro acc k h
    have hacc : acc ≠ [] := by tauto
    rw [buildBatchesGo]
    rw [if_neg (by simpa [List.isEmpty_iff] using hacc)]
    simp [chunksTD_nil]
  | cons e rest ih =>
    intro acc k _
    match k with
    | 0 =>
      rw [buildBatchesGo]
      rw [ih [e] (BATCH_SIZE - 1) (by simp)]
      simp only [List.take_zero, List.drop_zero, List.append_nil]
      rw [chunksTD_cons, take_batch_cons, drop_batch_cons]
      simp
    | k + 1 =>
      rw [buildBatchesGo]
      rw [ih (e :: acc) k (by simp)]
      simp

theorem build_batches_eq_chunksTD (l : List IssueEntry) : build_batches l = chunksTD l := by
  cases l with
  | nil =>
    rw [build_batches, buildBatchesGo, chunksTD_nil]
    rfl
  | cons e rest =>
    rw [build_batches, buildBatchesGo_spec (e :: rest) [] BATCH_SIZE (by simp), chunksTD_cons]
    simp

/-- A successful `matchTsAt` consumes at least one character. -/
theorem matchTsAt_consumed_pos (label : String) (l : List Char) (g : List Char) (k : Nat)
    (h : matchTsAt label l = some (g, k)) : 0 < k := by
  unfold matchTsAt at h
  dsimp only at h
  split at h
  case isTrue =>
    split at h
    case isTrue => simp at h
    case isFalse =>
      split at h
      next => simp only [Option.some.injEq, Prod.mk.injEq] at h; omega
      next => simp at h
  case isFalse => simp at h

/-! ## Lemmas: sorted insertion and in-place replacement -/

theorem insert_new_entry_eq (l : List IssueEntry) (e : IssueEntry) :
    insert_new_entry l e =
      l.takeWhile (fun x => !decide (e.numericId < x.numericId)) ++
        e :: l.dropWhile (fun x => !decide (e.numericId < x.numericId)) := by
  induction l with
  | nil => simp [insert_new_entry]
  | cons x xs ih =>
    by_cases h : e.numericId < x.numericId
    · simp [insert_new_entry, h, List.takeWhile_cons, List.dropWhile_cons]
    · simp [insert_new_entry, h, List.takeWhile_cons, List.dropWhile_cons, ih]

theorem map_insert_new_entry_perm (f : IssueEntry → α) (l : List IssueEntry) (e : IssueEntry) :
    ((insert_new_entry l e).map f).Perm (f e :: l.map f) := by
  induction l with
  | nil => simp [insert_new_entry]
  | cons x xs ih =>
    by_cases h : e.numericId < x.numericId
    · simp [insert_new_entry, h]
    · simp only [insert_new_entry, h, if_false, List.map_cons]
      exact (ih.cons (f x)).trans (List.Perm.swap (f e) (f x) (xs.map f))

theorem mem_insert_new_entry (l : List IssueEntry) (e a : IssueEntry) :
    a ∈ insert_new_entry l e ↔ a = e ∨ a ∈ l := by
  induction l with
  | nil => simp [insert_new_entry]
  | cons x xs ih =>
    by_cases h : e.numericId < x.numericId
    · simp only [insert_new_entry, h, if_true, List.mem_cons]
      try tauto
    · simp only [insert_new_entry, h, if_false, List.mem_cons, ih]
      try tauto

theorem length_insert_new_entry (l : List IssueEntry) (e : IssueEntry) :
    (insert_new_entry l e).length = l.length + 1 := by
  have := (map_insert_new_entry_perm (fun x => x.identifier) l e).length_eq
  simpa using this

theorem sorted_insert_new_entry (l : List IssueEntry) (e : IssueEntry)
    (h : sortedByKey l) : sortedByKey (insert_new_entry l e) := by
  induction l with
  | nil => simp [insert_new_entry, sortedByKey, entriesKeys]
  | cons x xs ih =>
    rw [sortedByKey, entriesKeys, List.map_cons, List.sorted_cons] at h
    obtain ⟨hx, hxs⟩ := h
    by_cases hlt : e.numericId < x.numericId
    · rw [sortedByKey, entriesKeys, insert_new_entry]
      simp only [hlt, if_true, List.map_cons, List.sorted_cons]
      refine ⟨?_, hx, hxs⟩
      intro b hb
      simp only [List.mem_cons] at hb
      rcases hb with rfl | hb
      · exact le_of_lt hlt
      · exact le_trans (le_of_lt hlt) (hx b hb)
    · rw [sortedByKey, entriesKeys, insert_new_entry]
      simp only [hlt, if_false, List.map_cons, List.sorted_cons]
      refine ⟨?_, ih hxs⟩
      intro b hb
      have hperm := map_insert_new_entry_perm (fun y => y.numericId) xs e
      have hb2 := hperm.mem_iff.mp (by simpa [entriesKeys] using hb)
      simp only [List.mem_cons] at hb2
      rcases hb2 with rfl | hb2
      · exact le_of_not_lt hlt
      · exact hx b (by simpa [entriesKeys] using hb2)

theorem entriesIds_cons (e : IssueEntry) (l : List IssueEntry) :
    entriesIds (e :: l) = e.identifier :: entriesIds l := rfl

theorem entriesKeys_cons (e : IssueEntry) (l : List IssueEntry) :
    entriesKeys (e :: l) = e.numericId :: entriesKeys l := rfl

theorem entriesIds_replaceContent (l : List IssueEntry) (i c : String) :
    entriesIds (replaceContent l i c) = entriesIds l := by
  induction l with
  | nil => rfl
  | cons e es ih =>
    rw [replaceContent]
    by_cases h1 : i ∈ entriesIds es
    · rw [if_pos h1, entriesIds_cons, entriesIds_cons, ih]
    · rw [if_neg h1]
      by_cases h2 : e.identifier = i
      · rw [if_pos h2, entriesIds_cons, entriesIds_cons]
      · rw [if_neg h2]

theorem entriesKeys_replaceContent (l : List IssueEntry) (i c : String) :
    entriesKeys (replaceContent l i c) = entriesKeys l := by
  induction l with
  | nil => rfl
  | cons e es ih =>
    rw [replaceContent]
    by_cases h1 : i ∈ entriesIds es
    · rw [if_pos h1, entriesKeys_cons, entriesKeys_cons, ih]
    · rw [if_neg h1]
      by_cases h2 : e.identifier = i
      · rw [if_pos h2, entriesKeys_cons, entriesKeys_cons]
        rfl
      · rw [if_neg h2]

theorem length_replaceContent (l : List IssueEntry) (i c : String) :
    (replaceContent l i c).length = l.length := by
  have := congrArg List.length (entriesIds_replaceContent l i c)
  simpa [entriesIds] using this

/-! ## Lemmas: the merge loop -/

theorem mergeStep_pos (s : MergeState) (r : Incoming) (hc : r.identifier ∈ entriesIds s.entries) :
    mergeStep s r =
      { entries := replaceContent s.entries r.identifier r.content
        touched := s.touched ++ [r.identifier]
        newIds := s.newIds
        latest := if r.updatedAt > s.latest then r.updatedAt else s.latest } := by
  simp only [mergeStep, if_pos hc]

theorem mergeStep_neg (s : MergeState) (r : Incoming) (hc : r.identifier ∉ entriesIds s.entries) :
    mergeStep s r =
      { entries := insert_new_entry s.entries ⟨r.identifier, r.content⟩
        touched := s.touched
        newIds := s.newIds ++ [r.identifier]
        latest := if r.updatedAt > s.latest then r.updatedAt else s.latest } := by
  simp only [mergeStep, if_neg hc]

theorem mem_entriesIds_insert (l : List IssueEntry) (e : IssueEntry) (y : String) :
    y ∈ entriesIds (insert_new_entry l e) ↔ y = e.identifier ∨ y ∈ entriesIds l := by
  have hperm := map_insert_new_entry_perm (fun z => z.identifier) l e
  rw [entriesIds, hperm.mem_iff]
  simp [entriesIds]

theorem mergeStep_inv (base : List IssueEntry) (s : MergeState) (r : Incoming)
    (h : MergeInv base s) : MergeInv base (mergeStep s r) := by
  obtain ⟨h1, h2, h3, h4, h5, h6⟩ := h
  by_cases hc : r.identifier ∈ entriesIds s.entries
  · rw [mergeStep_pos s r hc]
    refine ⟨?_, ?_, ?_, h4, ?_, ?_⟩
    · rw [sortedByKey, entriesKeys_replaceContent]; exact h1
    · rw [entriesIds_replaceContent]; exact h2
    · rw [length_replaceContent]; exact h3
    · intro x hx
      rw [entriesIds_replaceContent]
      exact h5 x hx
    · intro x hx
      rw [entriesIds_replaceContent]
      exact h6 x hx
  · rw [mergeStep_neg s r hc]
    have hperm := map_insert_new_entry_perm (fun y => y.identifier)
      s.entries ⟨r.identifier, r.content⟩
    refine ⟨?_, ?_, ?_, ?_, ?_, ?_⟩
    · exact sorted_insert_new_entry _ _ h1
    · refine hperm.nodup_iff.mpr ?_
      simp only [List.nodup_cons]
      exact ⟨by simpa [entriesIds] using hc, by simpa [entriesIds] using h2⟩
    · simp [length_insert_new_entry, h3, Nat.add_assoc]
    · simp only [List.nodup_append, List.nodup_cons, List.nodup_nil]
      refine ⟨h4, by simp, ?_⟩
      intro x hx
      simp only [List.mem_singleton]
      intro hxr
      subst hxr
      exact hc ((h5 _ hx).1)
    · intro x hx
      simp only [List.mem_append, List.mem_singleton] at hx
      rcases hx with hx | rfl
      · exact ⟨(mem_entriesIds_insert _ _ x).mpr (Or.inr ((h5 x hx).1)), (h5 x hx).2⟩
      · refine ⟨(mem_entriesIds_insert _ _ _).mpr (Or.inl rfl), ?_⟩
        intro hb
        exact hc (h6 _ hb)
    · intro x hx
      exact (mem_entriesIds_insert _ _ x).mpr (Or.inr (h6 x hx))

theorem foldl_mergeStep_inv (base : List IssueEntry) (incoming : List Incoming) :
    ∀ s : MergeState, MergeInv base s → MergeInv base (incoming.foldl mergeStep s) := by
  induction incoming with
  | nil => intro s h; simpa using h
  | cons r rest ih =>
    intro s h
    simpa using ih (mergeStep s r) (mergeStep_inv base s r h)

theorem mergeAll_inv (ls : Int) (base : List IssueEntry) (incoming : List Incoming)
    (hs : sortedByKey base) (hn : (entriesIds base).Nodup) :
    MergeInv base (mergeAll ls base incoming) := by
  refine foldl_mergeStep_inv base incoming _ ?_
  exact ⟨hs, hn, by simp, by simp, by simp, by simp⟩

theorem mergeStep_ids_iff (s : MergeState) (r : Incoming) (x : String) :
    x ∈ entriesIds (mergeStep s r).entries ↔
      x = r.identifier ∨ x ∈ entriesIds s.entries := by
  by_cases hc : r.identifier ∈ entriesIds s.entries
  · rw [mergeStep_pos s r hc]
    dsimp only
    rw [entriesIds_replaceContent]
    constructor
    · exact Or.inr
    · rintro (rfl | hx)
      · exact hc
      · exact hx
  · rw [mergeStep_neg s r hc]
    exact mem_entriesIds_insert _ _ x

theorem foldl_mergeStep_ids_iff (incoming : List Incoming) :
    ∀ (s : MergeState) (x : String),
      x ∈ entriesIds (incoming.foldl mergeStep s).entries ↔
        x ∈ entriesIds s.entries ∨ x ∈ incoming.map (fun r => r.identifier) := by
  induction incoming with
  | nil => intro s x; simp
  | cons r rest ih =>
    intro s x
    simp only [List.foldl_cons, List.map_cons, List.mem_cons]
    rw [ih (mergeStep s r) x, mergeStep_ids_iff]
    tauto

theorem mergeStep_touchedNew_iff (s : MergeState) (r : Incoming) (x : String) :
    (x ∈ (mergeStep s r).touched ∨ x ∈ (mergeStep s r).newIds) ↔
      x = r.identifier ∨ (x ∈ s.touched ∨ x ∈ s.newIds) := by
  by_cases hc : r.identifier ∈ entriesIds s.entries
  · rw [mergeStep_pos s r hc]
    dsimp only
    simp only [List.mem_append, List.mem_singleton]
    tauto
  · rw [mergeStep_neg s r hc]
    dsimp only
    simp only [List.mem_append, List.mem_singleton]
    tauto

theorem foldl_mergeStep_touchedNew_iff (incoming : List Incoming) :
    ∀ (s : MergeState) (x : String),
      (x ∈ (incoming.foldl mergeStep s).touched ∨ x ∈ (incoming.foldl mergeStep s).newIds) ↔
        (x ∈ s.touched ∨ x ∈ s.newIds) ∨ x ∈ incoming.map (fun r => r.identifier) := by
  induction incoming with
  | nil => intro s x; simp
  | cons r rest ih =>
    intro s x
    simp only [List.foldl_cons, List.map_cons, List.mem_cons]
    rw [ih (mergeStep s r) x, mergeStep_touchedNew_iff]
    tauto

theorem mergeStep_latest (s : MergeState) (r : Incoming) :
    (mergeStep s r).latest = max s.latest r.updatedAt := by
  have hif : (if r.updatedAt > s.latest then r.updatedAt else s.latest) =
      max s.latest r.updatedAt := by
    rcases le_total r.updatedAt s.latest with h | h
    · rw [if_neg (by omega), max_eq_left h]
    · rcases lt_or_eq_of_le h with h2 | h2
      · rw [if_pos h2, max_eq_right h]
      · rw [← h2]
        simp
  by_cases hc : r.identifier ∈ entriesIds s.entries
  · rw [mergeStep_pos s r hc]
    exact hif
  · rw [mergeStep_neg s r hc]
    exact hif

theorem foldl_mergeStep_latest (incoming : List Incoming) :
    ∀ s : MergeState,
      (incoming.foldl mergeStep s).latest =
        incoming.foldl (fun a r => max a r.updatedAt) s.latest := by
  induction incoming with
  | nil => intro s; simp
  | cons r rest ih =>
    intro s
    simp only [List.foldl_cons]
    rw [ih (mergeStep s r), mergeStep_latest]

theorem foldl_max_ge_init (incoming : List Incoming) :
    ∀ a : Int, a ≤ incoming.foldl (fun b r => max b r.updatedAt) a := by
  induction incoming with
  | nil => intro a; simp
  | cons r rest ih =>
    intro a
    simp only [List.foldl_cons]
    exact le_trans (le_max_left a r.updatedAt) (ih (max a r.updatedAt))

theorem foldl_max_ge_mem (incoming : List Incoming) :
    ∀ (a : Int) (r : Incoming), r ∈ incoming →
      r.updatedAt ≤ incoming.foldl (fun b q => max b q.updatedAt) a := by
  induction incoming with
  | nil => intro a r h; simp at h
  | cons q rest ih =>
    intro a r h
    simp only [List.mem_cons] at h
    simp only [List.foldl_cons]
    rcases h with rfl | h
    · exact le_trans (le_max_right a r.updatedAt) (foldl_max_ge_init rest _)
    · exact ih (max a q.updatedAt) r h

theorem foldl_max_cases (incoming : List Incoming) :
    ∀ a : Int, incoming.foldl (fun b r => max b r.updatedAt) a = a ∨
      ∃ r ∈ incoming, incoming.foldl (fun b q => max b q.updatedAt) a = r.updatedAt := by
  induction incoming with
  | nil => intro a; simp
  | cons q rest ih =>
    intro a
    simp only [List.foldl_cons]
    rcases ih (max a q.updatedAt) with h | ⟨r, hr, h⟩
    · rcases max_cases a q.updatedAt with ⟨he, _⟩ | ⟨he, _⟩
      · exact Or.inl (by rw [h, he])
      · exact Or.inr ⟨q, by simp, by rw [h, he]⟩
    · exact Or.inr ⟨r, by simp [hr], h⟩

theorem foldl_mergeStep_newIds_sub (incoming : List Incoming) :
    ∀ (s : MergeState) (x : String), x ∈ (incoming.foldl mergeStep s).newIds →
      x ∈ s.newIds ∨ x ∈ incoming.map (fun r => r.identifier) := by
  induction incoming with
  | nil => intro s x h; simp only [List.foldl_nil] at h; exact Or.inl h
  | cons r rest ih =>
    intro s x h
    simp only [List.foldl_cons] at h
    rcases ih (mergeStep s r) x h with h2 | h2
    · by_cases hc : r.identifier ∈ entriesIds s.entries
      · rw [mergeStep_pos s r hc] at h2
        exact Or.inl h2
      · rw [mergeStep_neg s r hc] at h2
        dsimp only at h2
        simp only [List.mem_append, List.mem_singleton] at h2
        rcases h2 with h2 | rfl
        · exact Or.inl h2
        · simp
    · simp only [List.map_cons, List.mem_cons]
      tauto

/-! ## Lemmas: digit-free identifiers (claim C10) -/

theorem firstDigitRun_eq_none (p : List Char) (h : ∀ c ∈ p, c.isDigit = false) :
    firstDigitRun p = none := by
  induction p with
  | nil => rfl
  | cons c cs ih =>
    rw [firstDigitRun, if_neg (by simp [h c (by simp)])]
    exact ih (fun d hd => h d (by simp [hd]))

theorem splitPredC_ne_nil (f : Char → Bool) (l : List Char) : splitPredC f l ≠ [] := by
  cases l with
  | nil => simp [splitPredC]
  | cons c cs =>
    rw [splitPredC]
    by_cases h : f c
    · simp [h]
    · simp only [h, if_false]
      cases hsp : splitPredC f cs <;> simp

theorem chars_splitPredC (f : Char → Bool) (l : List Char) :
    ∀ p ∈ splitPredC f l, ∀ c ∈ p, c ∈ l := by
  induction l with
  | nil =>
    intro p hp c hc
    simp [splitPredC] at hp
    subst hp
    simp at hc
  | cons a as ih =>
    intro p hp c hc
    rw [splitPredC] at hp
    by_cases h : f a
    · simp only [h, if_true, List.mem_cons] at hp
      rcases hp with rfl | hp
      · simp at hc
      · exact List.mem_cons_of_mem a (ih p hp c hc)
    · simp only [h, if_false] at hp
      cases hsp : splitPredC f as with
      | nil => exact absurd hsp (splitPredC_ne_nil f as)
      | cons p0 ps =>
        rw [hsp] at hp
        rcases List.mem_cons.mp hp with h1 | h1
        · have hc2 : c ∈ a :: p0 := h1 ▸ hc
          rcases List.mem_cons.mp hc2 with h2 | h2
          · simp [h2]
          · exact List.mem_cons_of_mem a (ih p0 (by rw [hsp]; simp) c h2)
        · exact List.mem_cons_of_mem a (ih p (by rw [hsp]; simp [h1]) c hc)

theorem findNumericPart_eq_none (parts : List (List Char))
    (h : ∀ p ∈ parts, firstDigitRun p = none) : findNumericPart parts = none := by
  induction parts with
  | nil => rfl
  | cons p ps ih =>
    rw [findNumericPart, h p (by simp)]
    exact ih (fun q hq => h q (by simp [hq]))

theorem get_numeric_identifier_digitless (s : String)
    (hs : ∀ c ∈ s.data, c.isDigit = false) : get_numeric_identifier s = 10 ^ 12 := by
  by_cases h : s = ""
  · rw [get_numeric_identifier, if_pos h]
  · rw [get_numeric_identifier, if_neg h]
    have hnone : findNumericPart
        ((splitPredC (fun c => (c == '-') || (c == '_')) s.data).reverse) = none := by
      refine findNumericPart_eq_none _ ?_
      intro p hp
      rw [List.mem_reverse] at hp
      refine firstDigitRun_eq_none p ?_
      intro c hc
      exact hs c (chars_splitPredC _ s.data p hp c hc)
    rw [hnone]

/-- Claim C10: an identifier with no decimal digit in any `-`/`_`-separated
part (equivalently, no digit at all, since splitting preserves the
characters; the empty identifier included) gets the fallback sort key
`10^12`; therefore such records sort strictly after every record whose
identifier yields an ordinary numeric suffix below `10^12`; and inserting
such a record into a list whose keys are all at most `10^12` appends it at
the end, so digit-free records keep their arrival order among themselves. -/
theorem C10_digitless_sort_key :
    (∀ s : String, (∀ c ∈ s.data, c.isDigit = false) →
      get_numeric_identifier s = 10 ^ 12) ∧
    (∀ s t : String, (∀ c ∈ s.data, c.isDigit = false) →
      get_numeric_identifier t < 10 ^ 12 →
      get_numeric_identifier t < get_numeric_identifier s) ∧
    (∀ (l : List IssueEntry) (e : IssueEntry), e.numericId = 10 ^ 12 →
      (∀ x ∈ l, x.numericId ≤ 10 ^ 12) → insert_new_entry l e = l ++ [e]) := by
  refine ⟨get_numeric_identifier_digitless, ?_, ?_⟩
  · intro s t hs ht
    rw [get_numeric_identifier_digitless s hs]
    exact ht
  · intro l e he
    induction l with
    | nil => intro _; simp [insert_new_entry]
    | cons x xs ih =>
      intro hall
      have hx : x.numericId ≤ 10 ^ 12 := hall x (by simp)
      rw [insert_new_entry, if_neg (by rw [he]; omega)]
      rw [ih (fun y hy => hall y (List.mem_cons_of_mem x hy))]
      simp

/-- Witness for C10 at concrete inputs. -/
theorem C10_digitless_sort_key_witness :
    (∀ c ∈ ("ABC-XYZ" : String).data, c.isDigit = false) ∧
    get_numeric_identifier ("ABC-XYZ") = 10 ^ 12 ∧
    get_numeric_identifier ("DEF-7") < get_numeric_identifier ("ABC-XYZ") ∧
    insert_new_entry [⟨"DEF-7", "a"⟩] ⟨"ABC-XYZ", "b"⟩ =
      [(⟨"DEF-7", "a"⟩ : IssueEntry), ⟨"ABC-XYZ", "b"⟩] :=
  ⟨by decide,
   C10_digitless_sort_key.1 ("ABC-XYZ") (by decide),
   C10_digitless_sort_key.2.1 ("ABC-XYZ") ("DEF-7") (by decide) (by decide),
   C10_digitless_sort_key.2.2 [⟨"DEF-7", "a"⟩] ⟨"ABC-XYZ", "b"⟩ (by decide) (by decide)⟩

/-! ## Claim C2: the merge guarantee -/

/-- Counterexample to claim C2 as stated: two digit-equal identifiers give
equal sort keys, so merging them into an empty (hence trivially strictly
sorted) baseline yields the key sequence `[1, 1]`, which is NOT strictly
sorted by sort key. -/
theorem C2_strict_sorted_counterexample :
    ¬ List.Sorted (· < ·)
      (entriesKeys (mergeAll 0 [] [⟨"A-1", "x", 0⟩, ⟨"B-1", "y", 0⟩]).entries) := by
  decide

/-- Claim C2 (amended): under a sorted-with-unique-ids baseline, `merge`
returns a sequence sorted by sort key in NON-DECREASING order (strict only
up to key ties, which genuinely occur) with unique ids, whose length is the
baseline length plus the number of genuinely new ids; an incoming record
whose id already exists replaces that entry's body in place (the identifier
sequence is unchanged); and a genuinely new record is inserted after all
entries with key less than or equal to its own — sort_key ascending, ties
broken by original arrival order. -/
theorem C2_merge_amended (ls : Int) (baseline : List IssueEntry) (incoming : List Incoming)
    (hs : sortedByKey baseline) (hn : (entriesIds baseline).Nodup) :
    sortedByKey (mergeAll ls baseline incoming).entries ∧
    (entriesIds (mergeAll ls baseline incoming).entries).Nodup ∧
    (mergeAll ls baseline incoming).entries.length =
      baseline.length + (mergeAll ls baseline incoming).newIds.length ∧
    (mergeAll ls baseline incoming).newIds.Nodup ∧
    (∀ x ∈ (mergeAll ls baseline incoming).newIds,
      x ∉ entriesIds baseline ∧ x ∈ incoming.map (fun r => r.identifier)) ∧
    (∀ (s : MergeState) (r : Incoming), r.identifier ∈ entriesIds s.entries →
      entriesIds (mergeStep s r).entries = entriesIds s.entries) ∧
    (∀ (l : List IssueEntry) (e : IssueEntry),
      insert_new_entry l e =
        l.takeWhile (fun x => !decide (e.numericId < x.numericId)) ++
          e :: l.dropWhile (fun x => !decide (e.numericId < x.numericId))) := by
  obtain ⟨i1, i2, i3, i4, i5, _⟩ := mergeAll_inv ls baseline incoming hs hn
  refine ⟨i1, i2, i3, i4, ?_, ?_, insert_new_entry_eq⟩
  · intro x hx
    refine ⟨(i5 x hx).2, ?_⟩
    have := foldl_mergeStep_newIds_sub incoming ⟨baseline, [], [], ls⟩ x hx
    simpa using this
  · intro s r hc
    rw [mergeStep_pos s r hc]
    exact entriesIds_replaceContent s.entries r.identifier r.content

/-- Witness for C2 (amended) at concrete inputs: baseline `[A-1]`, incoming
updates `A-1` and adds `B-2`. -/
theorem C2_merge_amended_witness :
    sortedByKey [(⟨"A-1", "x"⟩ : IssueEntry)] ∧
    (entriesIds [(⟨"A-1", "x"⟩ : IssueEntry)]).Nodup ∧
    (sortedByKey (mergeAll 0 [⟨"A-1", "x"⟩] [⟨"A-1", "z", 5⟩, ⟨"B-2", "w", 6⟩]).entries ∧
      (entriesIds (mergeAll 0 [⟨"A-1", "x"⟩] [⟨"A-1", "z", 5⟩, ⟨"B-2", "w", 6⟩]).entries).Nodup ∧
      (mergeAll 0 [⟨"A-1", "x"⟩] [⟨"A-1", "z", 5⟩, ⟨"B-2", "w", 6⟩]).entries.length =
        [(⟨"A-1", "x"⟩ : IssueEntry)].length +
          (mergeAll 0 [⟨"A-1", "x"⟩] [⟨"A-1", "z", 5⟩, ⟨"B-2", "w", 6⟩]).newIds.length ∧
      (mergeAll 0 [⟨"A-1", "x"⟩] [⟨"A-1", "z", 5⟩, ⟨"B-2", "w", 6⟩]).newIds.Nodup ∧
      (∀ x ∈ (mergeAll 0 [⟨"A-1", "x"⟩] [⟨"A-1", "z", 5⟩, ⟨"B-2", "w", 6⟩]).newIds,
        x ∉ entriesIds [(⟨"A-1", "x"⟩ : IssueEntry)] ∧
          x ∈ [(⟨"A-1", "z", 5⟩ : Incoming), ⟨"B-2", "w", 6⟩].map (fun r => r.identifier)) ∧
      (∀ (s : MergeState) (r : Incoming), r.identifier ∈ entriesIds s.entries →
        entriesIds (mergeStep s r).entries = entriesIds s.entries) ∧
      (∀ (l : List IssueEntry) (e : IssueEntry),
        insert_new_entry l e =
          l.takeWhile (fun x => !decide (e.numericId < x.numericId)) ++
            e :: l.dropWhile (fun x => !decide (e.numericId < x.numericId)))) :=
  ⟨by decide, by decide,
   C2_merge_amended 0 [⟨"A-1", "x"⟩] [⟨"A-1", "z", 5⟩, ⟨"B-2", "w", 6⟩] (by decide) (by decide)⟩

/-! ## Lemmas: unfolding the run -/

theorem runMain_wm_none (parseTs : String → Int) (formatTs : Int → String)
    (tm td ns : String) (files : List (Nat × String)) (st : String)
    (inc : List Incoming) (now : Int)
    (h : locateWatermark linearLabel st = none) :
    runMain parseTs formatTs tm td ns files st inc now =
      ([], .error .statusDocMissingLabel) := by
  rw [runMain, h]

theorem runMain_load_error (parseTs : String → Int) (formatTs : Int → String)
    (tm td ns : String) (files : List (Nat × String)) (st : String)
    (inc : List Incoming) (now : Int) (raw : String) (e : SyncError)
    (hwm : locateWatermark linearLabel st = some raw)
    (hl : loadAll files = .error e) :
    runMain parseTs formatTs tm td ns files st inc now = ([], .error e) := by
  rw [runMain, hwm, hl]

theorem runMain_loaded (parseTs : String → Int) (formatTs : Int → String)
    (tm td ns : String) (files : List (Nat × String)) (st : String)
    (inc : List Incoming) (now : Int) (raw : String)
    (entries : List IssueEntry) (assoc : List (Nat × List String))
    (hwm : locateWatermark linearLabel st = some raw)
    (hl : loadAll files = .ok (entries, assoc)) :
    runMain parseTs formatTs tm td ns files st inc now =
      runCore formatTs tm td ns (parseTs raw) entries assoc st inc now := by
  rw [runMain, hwm, hl]

theorem runCore_eq (f : Int → String) (tm td ns : String) (ls : Int)
    (entries : List IssueEntry) (assoc : List (Nat × List String))
    (st : String) (inc : List Incoming) (now : Int) :
    runCore f tm td ns ls entries assoc st inc now =
      (match linearUpdateStatusDoc ((splitLinesC st.data).map String.mk)
          (f (max (mergeAll ls entries inc).latest now))
          (summarize_changes td (mergeAll ls entries inc).touched
            (mergeAll ls entries inc).newIds
            ((changedBatches (build_batches (mergeAll ls entries inc).entries) assoc
              (mergeAll ls entries inc).touched (mergeAll ls entries inc).newIds).map Prod.fst)) with
       | .error e =>
         ((changedBatches (build_batches (mergeAll ls entries inc).entries) assoc
             (mergeAll ls entries inc).touched (mergeAll ls entries inc).newIds).map
            (fun p => FileOp.writeBatch p.1 p.2 (render_batch tm ns p.1 p.2)) ++
           (deleteNums assoc (build_batches (mergeAll ls entries inc).entries).length).map
             FileOp.deleteBatch, .error e)
       | .ok out =>
         ((changedBatches (build_batches (mergeAll ls entries inc).entries) assoc
             (mergeAll ls entries inc).touched (mergeAll ls entries inc).newIds).map
            (fun p => FileOp.writeBatch p.1 p.2 (render_batch tm ns p.1 p.2)) ++
           (deleteNums assoc (build_batches (mergeAll ls entries inc).entries).length).map
             FileOp.deleteBatch ++ [FileOp.writeStatus (joinLinesNl out)],
          .ok (max (mergeAll ls entries inc).latest now))) := rfl

theorem runCore_ok_finalTs (f : Int → String) (tm td ns : String) (ls : Int)
    (entries : List IssueEntry) (assoc : List (Nat × List String))
    (st : String) (inc : List Incoming) (now t : Int)
    (h : (runCore f tm td ns ls entries assoc st inc now).2 = .ok t) :
    t = max (mergeAll ls entries inc).latest now := by
  rw [runCore_eq] at h
  split at h
  · simp at h
  · simp only at h
    exact (Except.ok.inj h).symm

theorem watermark_chain_mono (prev : Int) (runs : List (List Incoming × Int)) :
    prev ≤ runs.foldl (fun w p => advanceTs w p.1 p.2) prev := by
  induction runs generalizing prev with
  | nil => simp
  | cons q rest ih =>
    simp only [List.foldl_cons]
    refine le_trans ?_ (ih (advanceTs prev q.1 q.2))
    exact le_trans (foldl_max_ge_init q.1 prev) (le_max_left _ q.2)

/-! ## Claim C3: the watermark -/

/-- Counterexample to claim C3 as stated: on a successful run with zero
incoming records the persisted watermark is `max(previous, now)`, not `now`:
with previous watermark 10 and clock `now = 5` the run succeeds and persists
10, not 5. -/
theorem C3_zero_incoming_counterexample :
    (runMain (fun _ => 10) (fun t => toString t) ("T") ("D") ("N") []
        ("`lastSyncTimestamp`: 1Z\n## Daily Summaries\n- old") [] 5).2 = Except.ok 10 ∧
    (10 : Int) ≠ 5 := by
  refine ⟨by decide, by decide⟩

/-- Claim C3 (amended): at the end of every successful run the persisted
watermark equals `max(previous watermark, max of updated_at over the
fetched records, now)`; consequently it never decreases across any run
sequence; and on a run with zero incoming records it advances to
`max(previous watermark, now)` — which is `now` whenever the clock is not
behind the stored watermark, but stays at the previous watermark when the
clock is behind it. -/
theorem C3_watermark_amended (parseTs : String → Int) (formatTs : Int → String)
    (tm td ns : String) (files : List (Nat × String)) (st : String)
    (incoming : List Incoming) (now t : Int) (raw : String)
    (hwm : locateWatermark linearLabel st = some raw)
    (hok : (runMain parseTs formatTs tm td ns files st incoming now).2 = .ok t) :
    t = advanceTs (parseTs raw) incoming now ∧
    parseTs raw ≤ t ∧ now ≤ t ∧ (∀ r ∈ incoming, r.updatedAt ≤ t) ∧
    (t = now ∨ t = parseTs raw ∨ ∃ r ∈ incoming, t = r.updatedAt) ∧
    (incoming = [] → t = max (parseTs raw) now) ∧
    (∀ (prev : Int) (runs : List (List Incoming × Int)),
      prev ≤ runs.foldl (fun w p => advanceTs w p.1 p.2) prev) := by
  cases hl : loadAll files with
  | error e =>
    rw [runMain_load_error parseTs formatTs tm td ns files st incoming now raw e hwm hl] at hok
    simp at hok
  | ok pr =>
    obtain ⟨entries, assoc⟩ := pr
    rw [runMain_loaded parseTs formatTs tm td ns files st incoming now raw entries assoc hwm hl]
      at hok
    have ht := runCore_ok_finalTs formatTs tm td ns (parseTs raw) entries assoc st incoming now
      t hok
    rw [mergeAll] at ht
    rw [foldl_mergeStep_latest incoming ⟨entries, [], [], parseTs raw⟩] at ht
    have ht' : t = advanceTs (parseTs raw) incoming now := ht
    refine ⟨ht', ?_, ?_, ?_, ?_, ?_, watermark_chain_mono⟩
    · rw [ht']
      exact le_trans (foldl_max_ge_init incoming (parseTs raw)) (le_max_left _ now)
    · rw [ht']
      exact le_max_right _ now
    · intro r hr
      rw [ht']
      exact le_trans (foldl_max_ge_mem incoming (parseTs raw) r hr) (le_max_left _ now)
    · rw [ht', advanceTs]
      rcases foldl_max_cases incoming (parseTs raw) with hcase | ⟨r, hr, hcase⟩ <;>
        rcases max_cases (incoming.foldl (fun b q => max b q.updatedAt) (parseTs raw)) now with
          ⟨hm, _⟩ | ⟨hm, _⟩
      · rw [hm, hcase]; tauto
      · rw [hm]; tauto
      · rw [hm, hcase]
        exact Or.inr (Or.inr ⟨r, hr, rfl⟩)
      · rw [hm]; tauto
    · intro hinc
      subst hinc
      rw [ht']
      rfl

/-- Witness for C3 (amended) at a concrete successful run: previous
watermark 3, one record updated at 5, clock 7; persisted value is 7. -/
theorem C3_watermark_amended_witness :
    locateWatermark linearLabel ("`lastSyncTimestamp`: 1Z\n## Daily Summaries\n- old") =
      some ("1") ∧
    (runMain (fun _ => 3) (fun t => toString t) ("T") ("D") ("N") []
        ("`lastSyncTimestamp`: 1Z\n## Daily Summaries\n- old")
        [⟨"A-1", "# A-1: t\nx\n---\n\n", 5⟩] 7).2 = .ok 7 ∧
    ((7 : Int) = advanceTs 3 [⟨"A-1", "# A-1: t\nx\n---\n\n", 5⟩] 7 ∧
      (3 : Int) ≤ 7 ∧ (7 : Int) ≤ 7 ∧
      (∀ r ∈ [(⟨"A-1", "# A-1: t\nx\n---\n\n", 5⟩ : Incoming)], r.updatedAt ≤ 7) ∧
      ((7 : Int) = 7 ∨ (7 : Int) = 3 ∨
        ∃ r ∈ [(⟨"A-1", "# A-1: t\nx\n---\n\n", 5⟩ : Incoming)], (7 : Int) = r.updatedAt) ∧
      ([(⟨"A-1", "# A-1: t\nx\n---\n\n", 5⟩ : Incoming)] = [] → (7 : Int) = max 3 7) ∧
      (∀ (prev : Int) (runs : List (List Incoming × Int)),
        prev ≤ runs.foldl (fun w p => advanceTs w p.1 p.2) prev)) :=
  ⟨by decide, by decide,
   C3_watermark_amended (fun _ => 3) (fun t => toString t) ("T") ("D") ("N") []
     ("`lastSyncTimestamp`: 1Z\n## Daily Summaries\n- old")
     [⟨"A-1", "# A-1: t\nx\n---\n\n", 5⟩] 7 7 ("1") (by decide) (by decide)⟩

/-! ## Lemmas: prefix and substring characterisations -/

theorem isPrefixOfC_iff (p : List Char) : ∀ l : List Char,
    isPrefixOfC p l = true ↔ ∃ t, l = p ++ t := by
  induction p with
  | nil =>
    intro l
    simp [isPrefixOfC]
  | cons a as ih =>
    intro l
    cases l with
    | nil =>
      rw [isPrefixOfC]
      simp
    | cons b bs =>
      rw [isPrefixOfC]
      simp only [Bool.and_eq_true, beq_iff_eq]
      rw [ih bs]
      constructor
      · rintro ⟨rfl, t, rfl⟩
        exact ⟨t, rfl⟩
      · rintro ⟨t, h⟩
        rw [List.cons_append] at h
        injection h with h1 h2
        exact ⟨h1.symm, t, h2⟩

theorem isPrefixOfC_self_append (p t : List Char) : isPrefixOfC p (p ++ t) = true :=
  (isPrefixOfC_iff p (p ++ t)).mpr ⟨t, rfl⟩

theorem isPrefixOfC_append_weaken (p l y : List Char) (h : isPrefixOfC p l = true) :
    isPrefixOfC p (l ++ y) = true := by
  obtain ⟨t, rfl⟩ := (isPrefixOfC_iff p l).mp h
  rw [List.append_assoc]
  exact isPrefixOfC_self_append p (t ++ y)

theorem isPrefixOfC_append_of_le (p : List Char) : ∀ (l y : List Char),
    p.length ≤ l.length → isPrefixOfC p (l ++ y) = isPrefixOfC p l := by
  induction p with
  | nil => intro l y _; simp [isPrefixOfC]
  | cons a as ih =>
    intro l y hlen
    cases l with
    | nil => simp at hlen
    | cons b bs =>
      rw [List.cons_append, isPrefixOfC, isPrefixOfC]
      rw [ih bs y (by simpa using hlen)]

theorem containsSeq_iff (sep : List Char) : ∀ l : List Char,
    containsSeq sep l = true ↔ ∃ a b, l = a ++ sep ++ b := by
  intro l
  induction l with
  | nil =>
    rw [containsSeq, isPrefixOfC_iff]
    constructor
    · rintro ⟨t, h⟩
      rw [eq_comm, List.append_eq_nil] at h
      exact ⟨[], [], by simp [h.1]⟩
    · rintro ⟨a, b, h⟩
      rw [eq_comm, List.append_eq_nil] at h
      obtain ⟨h1, h2⟩ := h
      rw [List.append_eq_nil] at h1
      exact ⟨[], by simp [h1.2]⟩
  | cons c cs ih =>
    rw [containsSeq]
    simp only [Bool.or_eq_true]
    rw [isPrefixOfC_iff, ih]
    constructor
    · rintro (⟨t, h⟩ | ⟨a, b, h⟩)
      · exact ⟨[], t, by simp [h]⟩
      · exact ⟨c :: a, b, by simp [h]⟩
    · rintro ⟨a, b, h⟩
      cases a with
      | nil =>
        left
        exact ⟨b, by simpa using h⟩
      | cons x xs =>
        right
        rw [List.append_assoc, List.cons_append] at h
        injection h with h1 h2
        exact ⟨xs, b, by rw [h2, List.append_assoc]⟩

theorem containsSeq_cons_of (sep : List Char) (c : Char) (l : List Char)
    (h : containsSeq sep l = true) : containsSeq sep (c :: l) = true := by
  rw [containsSeq, h]
  simp

theorem containsSeq_append_left (sep a b : List Char) (h : containsSeq sep a = true) :
    containsSeq sep (a ++ b) = true := by
  obtain ⟨x, y, rfl⟩ := (containsSeq_iff sep a).mp h
  refine (containsSeq_iff sep _).mpr ⟨x, y ++ b, by simp⟩

theorem containsSeq_append_right (sep a b : List Char) (h : containsSeq sep b = true) :
    containsSeq sep (a ++ b) = true := by
  obtain ⟨x, y, rfl⟩ := (containsSeq_iff sep b).mp h
  refine (containsSeq_iff sep _).mpr ⟨a ++ x, y, by simp⟩

theorem containsSeq_of_isPrefixOfC (sep l : List Char) (h : isPrefixOfC sep l = true) :
    containsSeq sep l = true := by
  obtain ⟨t, rfl⟩ := (isPrefixOfC_iff sep l).mp h
  exact (containsSeq_iff sep _).mpr ⟨[], t, by simp⟩

theorem replText_eq_token_append (label ts : String) :
    replText label ts = labelToken label ++ (':' :: ' ' :: ts.data) := by
  rw [replText, tsPatternHead, labelToken]
  simp

theorem containsSeq_token_replText (label ts : String) :
    containsSeq (labelToken label) (replText label ts) = true := by
  rw [replText_eq_token_append]
  exact containsSeq_of_isPrefixOfC _ _ (isPrefixOfC_self_append _ _)

/-! ## Lemmas: the watermark substitution keeps the label token -/

theorem matchTsAt_none_of_head (label : String) (c : Char) (cs : List Char)
    (h : c ≠ '`') : matchTsAt label (c :: cs) = none := by
  have hbeq : ('`' == c) = false := by
    simp [Ne.symm h]
  have hpre : isPrefixOfC (tsPatternHead label) (c :: cs) = false := by
    rw [tsPatternHead]
    simp only [isPrefixOfC, hbeq, Bool.false_and]
  rw [matchTsAt]
  simp [hpre]

theorem subTsGo_no_backtick (label : String) (repl : List Char) (x : List Char)
    (hx : ∀ c ∈ x, c ≠ '`') : ∀ y : List Char,
    subTsGo label repl (x ++ y) 0 = x ++ subTsGo label repl y 0 := by
  induction x with
  | nil => intro y; simp
  | cons c cs ih =>
    intro y
    rw [List.cons_append, subTsGo]
    rw [matchTsAt_none_of_head label c (cs ++ y) (hx c (by simp))]
    rw [ih (fun d hd => hx d (by simp [hd])) y]
    rfl

theorem subTs_keeps_token (label : String) (ts : String)
    (hlabel : ∀ c ∈ label.data, c ≠ '`') : ∀ l : List Char,
    containsSeq (labelToken label) l = true →
    containsSeq (labelToken label) (subTsGo label (replText label ts) l 0) = true := by
  intro l
  induction l with
  | nil =>
    intro h
    rw [containsSeq, labelToken] at h
    simp [isPrefixOfC] at h
  | cons c cs ih =>
    intro h
    simp only [subTsGo]
    cases hm : matchTsAt label (c :: cs) with
    | some g =>
      simp only
      exact containsSeq_append_left _ _ _ (containsSeq_token_replText label ts)
    | none =>
      simp only
      rw [containsSeq, Bool.or_eq_true] at h
      rcases h with h | h
      · obtain ⟨t, ht⟩ := (isPrefixOfC_iff _ _).mp h
        rw [labelToken, List.cons_append] at ht
        injection ht with h1 h2
        rw [List.append_eq, List.append_assoc, List.singleton_append] at h2
        rw [h2, subTsGo_no_backtick label _ label.data hlabel ('`' :: t)]
        simp only [subTsGo]
        cases hm2 : matchTsAt label ('`' :: t) with
        | some g2 =>
          simp only
          refine containsSeq_cons_of _ _ _ ?_
          exact containsSeq_append_right _ _ _
            (containsSeq_append_left _ _ _ (containsSeq_token_replText label ts))
        | none =>
          simp only
          subst h1
          refine containsSeq_of_isPrefixOfC _ _ ?_
          refine (isPrefixOfC_iff _ _).mpr ⟨subTsGo label (replText label ts) t 0, ?_⟩
          rw [labelToken]
          simp
      · exact containsSeq_cons_of _ _ _ (ih h)

/-! ## Lemmas: the status-document line edits -/

theorem splitAtHeading_none_iff (h : String) : ∀ lines : List String,
    splitAtHeading h lines = none ↔ h ∉ lines := by
  intro lines
  induction lines with
  | nil => simp [splitAtHeading]
  | cons l ls ih =>
    rw [splitAtHeading]
    by_cases hl : l = h
    · simp [hl]
    · rw [if_neg hl]
      simp only [Option.map_eq_none', List.mem_cons]
      rw [ih]
      constructor
      · intro hn hmem
        rcases hmem with rfl | hmem
        · exact hl rfl
        · exact hn hmem
      · intro hn
        exact fun hmem => hn (Or.inr hmem)

theorem splitAtHeading_append (h : String) (post : List String) : ∀ pre : List String,
    h ∉ pre → splitAtHeading h (pre ++ h :: post) = some (pre, post) := by
  intro pre
  induction pre with
  | nil =>
    intro _
    rw [List.nil_append, splitAtHeading, if_pos rfl]
  | cons l ls ih =>
    intro hpre
    have hl : l ≠ h := by
      intro hc
      exact hpre (by simp [hc])
    rw [List.cons_append, splitAtHeading, if_neg hl,
      ih (fun hc => hpre (by simp [hc]))]
    rfl

theorem subFirstTokenLine_none_iff (label ts : String) : ∀ lines : List String,
    subFirstTokenLine label ts lines = none ↔ ∀ l ∈ lines, lineHasToken label l = false := by
  intro lines
  induction lines with
  | nil => simp [subFirstTokenLine]
  | cons l ls ih =>
    rw [subFirstTokenLine]
    by_cases hl : lineHasToken label l
    · simp [hl]
    · rw [if_neg hl]
      simp only [Option.map_eq_none', List.mem_cons]
      rw [ih]
      constructor
      · intro hn x hx
        rcases hx with rfl | hx
        · exact Bool.eq_false_iff.mpr hl
        · exact hn x hx
      · intro hn x hx
        exact hn x (Or.inr hx)

theorem subFirstTokenLine_append_left (label ts : String) (rest : List String) :
    ∀ (pre pre' : List String), subFirstTokenLine label ts pre = some pre' →
      subFirstTokenLine label ts (pre ++ rest) = some (pre' ++ rest) := by
  intro pre
  induction pre with
  | nil =>
    intro pre' h
    simp [subFirstTokenLine] at h
  | cons l ls ih =>
    intro pre' h
    rw [subFirstTokenLine] at h
    rw [List.cons_append, subFirstTokenLine]
    by_cases hl : lineHasToken label l
    · rw [if_pos hl] at h
      rw [if_pos hl]
      obtain rfl := Option.some.inj h
      rfl
    · rw [if_neg hl] at h
      rw [if_neg hl]
      cases hs : subFirstTokenLine label ts ls with
      | none => rw [hs] at h; simp at h
      | some ls' =>
        rw [hs] at h
        obtain rfl := Option.some.inj h
        rw [ih ls' hs]
        rfl

theorem subFirstTokenLine_decomp (label ts : String) : ∀ (lines out : List String),
    subFirstTokenLine label ts lines = some out →
    ∃ pre line post, lines = pre ++ line :: post ∧
      (∀ p ∈ pre, lineHasToken label p = false) ∧
      lineHasToken label line = true ∧
      out = pre ++ String.mk (subTsLine label (replText label ts) line.data) :: post := by
  intro lines
  induction lines with
  | nil =>
    intro out h
    simp [subFirstTokenLine] at h
  | cons l ls ih =>
    intro out h
    rw [subFirstTokenLine] at h
    by_cases hl : lineHasToken label l
    · rw [if_pos hl] at h
      obtain rfl := Option.some.inj h
      exact ⟨[], l, ls, by simp, by simp, hl, by simp⟩
    · rw [if_neg hl] at h
      cases hs : subFirstTokenLine label ts ls with
      | none => rw [hs] at h; simp at h
      | some ls' =>
        rw [hs] at h
        obtain rfl := Option.some.inj h
        obtain ⟨pre, line, post, h1, h2, h3, h4⟩ := ih ls' hs
        refine ⟨l :: pre, line, post, by simp [h1], ?_, h3, by simp [h4]⟩
        intro p hp
        rcases List.mem_cons.mp hp with rfl | hp
        · exact Bool.eq_false_iff.mpr hl
        · exact h2 p hp

theorem any_map_false {α β : Type} (f : α → β) (p : β → Bool) (l : List α)
    (h : ∀ a, p (f a) = false) : (l.map f).any p = false := by
  induction l with
  | nil => rfl
  | cons a as ih => simp [h a, ih]

theorem writes_dels_no_status (changed : List (Nat × List IssueEntry)) (dels : List Nat)
    (tm ns : String) :
    (((changed.map (fun p => FileOp.writeBatch p.1 p.2 (render_batch tm ns p.1 p.2))) ++
      dels.map FileOp.deleteBatch).any FileOp.isWriteStatus) = false := by
  rw [List.any_append]
  rw [any_map_false _ _ _ (fun p => rfl), any_map_false _ _ _ (fun n => rfl)]
  rfl

/-! ## Claim C4: status-document failures and write ordering -/

/-- Counterexample to claim C4 as stated: a status document that carries the
watermark field but lacks the summary heading makes the run fail with the
StatusDocError for the missing heading, yet a batch file HAS been written
before the failure (the heading check happens only inside
`update_status_doc`, which `main` calls after writing the batch files). -/
theorem C4_partial_write_counterexample :
    ((runMain (fun _ => 0) (fun t => toString t) ("T") ("D") ("N") []
        ("`lastSyncTimestamp`: 1Z\nno heading") [⟨"A-1", "# A-1: t\nx\n---\n\n", 9⟩] 5).2 =
      Except.error .statusDocMissingHeading) ∧
    (((runMain (fun _ => 0) (fun t => toString t) ("T") ("D") ("N") []
        ("`lastSyncTimestamp`: 1Z\nno heading") [⟨"A-1", "# A-1: t\nx\n---\n\n", 9⟩] 5).1.any
      FileOp.isWriteBatch) = true) :=
  ⟨by decide, by decide⟩

/-- Claim C4 (amended): a status document in which the watermark field
cannot be located aborts the run before ANY file operation; a run that
fails with any engine error never writes the status document; and a status
document that carries the watermark field on some line but no summary
heading makes the run fail with `StatusDocError` for the missing heading
(after the batch rewrites, as the counterexample shows, but with the status
document itself untouched). -/
theorem C4_statusdoc_failure_semantics (parseTs : String → Int) (formatTs : Int → String)
    (tm td ns : String) (files : List (Nat × String)) (st : String)
    (incoming : List Incoming) (now : Int) (raw : String)
    (entries : List IssueEntry) (assoc : List (Nat × List String)) :
    (locateWatermark linearLabel st = none →
      runMain parseTs formatTs tm td ns files st incoming now =
        ([], .error .statusDocMissingLabel)) ∧
    (∀ e, (runMain parseTs formatTs tm td ns files st incoming now).2 = .error e →
      ((runMain parseTs formatTs tm td ns files st incoming now).1.any
        FileOp.isWriteStatus) = false) ∧
    (locateWatermark linearLabel st = some raw →
      loadAll files = .ok (entries, assoc) →
      (∃ l ∈ statusLines st, lineHasToken linearLabel l = true) →
      linearHeading ∉ statusLines st →
      (runMain parseTs formatTs tm td ns files st incoming now).2 =
        .error .statusDocMissingHeading) := by
  refine ⟨?_, ?_, ?_⟩
  · intro hwm
    exact runMain_wm_none parseTs formatTs tm td ns files st incoming now hwm
  · intro e he
    cases hwm : locateWatermark linearLabel st with
    | none =>
      rw [runMain_wm_none parseTs formatTs tm td ns files st incoming now hwm]
      rfl
    | some raw2 =>
      cases hl : loadAll files with
      | error e2 =>
        rw [runMain_load_error parseTs formatTs tm td ns files st incoming now raw2 e2 hwm hl]
        rfl
      | ok pr =>
        obtain ⟨en, asc⟩ := pr
        rw [runMain_loaded parseTs formatTs tm td ns files st incoming now raw2 en asc hwm hl]
          at he ⊢
        rw [runCore_eq] at he ⊢
        cases hupd : linearUpdateStatusDoc ((splitLinesC st.data).map String.mk)
            (formatTs (max (mergeAll (parseTs raw2) en incoming).latest now))
            (summarize_changes td (mergeAll (parseTs raw2) en incoming).touched
              (mergeAll (parseTs raw2) en incoming).newIds
              ((changedBatches (build_batches (mergeAll (parseTs raw2) en incoming).entries) asc
                (mergeAll (parseTs raw2) en incoming).touched
                (mergeAll (parseTs raw2) en incoming).newIds).map Prod.fst)) with
        | error e3 =>
          exact writes_dels_no_status _ _ tm ns
        | ok out =>
          rw [hupd] at he
          simp at he
  · intro hwm hload hline hhead
    rw [runMain_loaded parseTs formatTs tm td ns files st incoming now raw entries assoc
      hwm hload]
    rw [runCore_eq]
    have hupd : ∀ nts sum : String,
        linearUpdateStatusDoc ((splitLinesC st.data).map String.mk) nts sum =
          .error .statusDocMissingHeading := by
      intro nts sum
      obtain ⟨l0, hl0mem, hl0tok⟩ := hline
      rw [statusLines] at hl0mem
      have hsub : ∃ out, subFirstTokenLine linearLabel nts
          ((splitLinesC st.data).map String.mk) = some out := by
        cases hs : subFirstTokenLine linearLabel nts ((splitLinesC st.data).map String.mk) with
        | none =>
          have := (subFirstTokenLine_none_iff linearLabel nts _).mp hs l0 hl0mem
          rw [hl0tok] at this
          simp at this
        | some out => exact ⟨out, rfl⟩
      obtain ⟨out, hout⟩ := hsub
      rw [linearUpdateStatusDoc, hout]
      obtain ⟨pre, line, post, hsplit, _, hlineTok, houteq⟩ :=
        subFirstTokenLine_decomp linearLabel nts _ out hout
      have hnone : splitAtHeading linearHeading out = none := by
        rw [splitAtHeading_none_iff, houteq]
        intro hmem
        rw [statusLines, hsplit] at hhead
        rcases List.mem_append.mp hmem with hp | hq
        · exact hhead (List.mem_append.mpr (Or.inl hp))
        · rcases List.mem_cons.mp hq with heq | hq2
          · have htok : containsSeq (labelToken linearLabel)
                (String.mk (subTsLine linearLabel (replText linearLabel nts) line.data)).data =
                  true := by
              refine subTs_keeps_token linearLabel nts (by decide) line.data ?_
              exact hlineTok
            rw [← heq] at htok
            have : lineHasToken linearLabel linearHeading = false := by decide
            rw [lineHasToken] at this
            rw [this] at htok
            simp at htok
          · exact hhead (List.mem_append.mpr (Or.inr (List.mem_cons.mpr (Or.inr hq2))))
      dsimp only
      rw [hnone]
    rw [hupd]

/-- Witness for C4 (amended) at concrete inputs: a document without the
watermark label, and a document with the label but without the heading. -/
theorem C4_statusdoc_failure_semantics_witness :
    locateWatermark linearLabel ("no label here") = none ∧
    runMain (fun _ => 0) (fun t => toString t) ("T") ("D") ("N") [] ("no label here") [] 5 =
      ([], .error .statusDocMissingLabel) ∧
    ((runMain (fun _ => 0) (fun t => toString t) ("T") ("D") ("N") []
        ("`lastSyncTimestamp`: 1Z\nno heading") [] 5).2 = .error .statusDocMissingHeading →
      ((runMain (fun _ => 0) (fun t => toString t) ("T") ("D") ("N") []
        ("`lastSyncTimestamp`: 1Z\nno heading") [] 5).1.any FileOp.isWriteStatus) = false) ∧
    locateWatermark linearLabel ("`lastSyncTimestamp`: 1Z\nno heading") = some ("1") ∧
    loadAll [] = .ok ([], []) ∧
    (∃ l ∈ statusLines ("`lastSyncTimestamp`: 1Z\nno heading"),
      lineHasToken linearLabel l = true) ∧
    linearHeading ∉ statusLines ("`lastSyncTimestamp`: 1Z\nno heading") ∧
    (runMain (fun _ => 0) (fun t => toString t) ("T") ("D") ("N") []
        ("`lastSyncTimestamp`: 1Z\nno heading") [] 5).2 = .error .statusDocMissingHeading :=
  ⟨by decide,
   (C4_statusdoc_failure_semantics (fun _ => 0) (fun t => toString t) ("T") ("D") ("N") []
     ("no label here") [] 5 ("1") [] []).1 (by decide),
   (C4_statusdoc_failure_semantics (fun _ => 0) (fun t => toString t) ("T") ("D") ("N") []
     ("`lastSyncTimestamp`: 1Z\nno heading") [] 5 ("1") [] []).2.1 .statusDocMissingHeading,
   by decide, by decide,
   ⟨"`lastSyncTimestamp`: 1Z", by decide, by decide⟩,
   by decide,
   (C4_statusdoc_failure_semantics (fun _ => 0) (fun t => toString t) ("T") ("D") ("N") []
     ("`lastSyncTimestamp`: 1Z\nno heading") [] 5 ("1") [] []).2.2 (by decide) (by decide)
     ⟨"`lastSyncTimestamp`: 1Z", by decide, by decide⟩ (by decide)⟩

/-! ## Lemmas: loading and malformed batch files -/

theorem splitFirstSeq_none_iff (sep : List Char) (hsep : sep ≠ []) : ∀ l : List Char,
    splitFirstSeq sep l = none ↔ containsSeq sep l = false := by
  intro l
  induction l with
  | nil =>
    rw [splitFirstSeq, containsSeq]
    cases sep with
    | nil => exact absurd rfl hsep
    | cons a as => simp [isPrefixOfC]
  | cons c cs ih =>
    rw [splitFirstSeq, containsSeq]
    by_cases hp : isPrefixOfC sep (c :: cs) = true
    · simp [hp]
    · rw [if_neg hp]
      simp only [Option.map_eq_none', Bool.or_eq_false_iff]
      rw [ih]
      simp [Bool.eq_false_iff.mpr hp]

theorem parseBatchFileText_none_iff (text : String) :
    parseBatchFileText text = none ↔ containsSeq delimChars text.data = false := by
  rw [parseBatchFileText]
  cases hs : splitFirstSeq delimChars text.data with
  | none =>
    simp only
    rw [← splitFirstSeq_none_iff delimChars (by decide) text.data]
    simp [hs]
  | some p =>
    simp only
    constructor
    · intro h
      simp at h
    · intro h
      rw [← splitFirstSeq_none_iff delimChars (by decide) text.data] at h
      rw [hs] at h
      simp at h

theorem insertByNum_perm (p : Nat × String) (l : List (Nat × String)) :
    (insertByNum p l).Perm (p :: l) := by
  induction l with
  | nil => simp [insertByNum]
  | cons q qs ih =>
    rw [insertByNum]
    by_cases h : p.1 < q.1
    · simp [h]
    · rw [if_neg h]
      exact (ih.cons q).trans (List.Perm.swap p q qs)

theorem sortFilesByNum_perm (files : List (Nat × String)) :
    (sortFilesByNum files).Perm files := by
  have hgen : ∀ (fs acc : List (Nat × String)),
      (fs.foldl (fun a p => insertByNum p a) acc).Perm (acc ++ fs) := by
    intro fs
    induction fs with
    | nil => intro acc; simp
    | cons f fs2 ih =>
      intro acc
      rw [List.foldl_cons]
      refine (ih (insertByNum f acc)).trans ?_
      refine (List.Perm.append_right fs2 (insertByNum_perm f acc)).trans ?_
      rw [List.cons_append]
      exact (List.perm_middle).symm.symm |>.symm
  simpa using hgen files []

theorem loadAllGo_malformed : ∀ files : List (Nat × String),
    (∃ p ∈ files, parseBatchFileText p.2 = none) →
    ∃ m, loadAllGo files = .error (SyncError.malformedBatch m) := by
  intro files
  induction files with
  | nil =>
    rintro ⟨p, hp, _⟩
    simp at hp
  | cons f rest ih =>
    rintro ⟨p, hp, hbad⟩
    obtain ⟨n, text⟩ := f
    rw [loadAllGo]
    cases hparse : parseBatchFileText text with
    | none => exact ⟨n, rfl⟩
    | some es =>
      rcases List.mem_cons.mp hp with rfl | hp2
      · rw [hparse] at hbad
        simp at hbad
      · obtain ⟨m, hm⟩ := ih ⟨p, hp2, hbad⟩
        rw [hm]
        exact ⟨m, rfl⟩

theorem loadAll_malformed (files : List (Nat × String)) (n : Nat) (text : String)
    (hmem : (n, text) ∈ files) (hbad : containsSeq delimChars text.data = false) :
    ∃ m, loadAll files = .error (SyncError.malformedBatch m) := by
  refine loadAllGo_malformed (sortFilesByNum files) ⟨(n, text), ?_, ?_⟩
  · exact (sortFilesByNum_perm files).mem_iff.mpr hmem
  · exact (parseBatchFileText_none_iff text).mpr hbad

/-! ## Claim C6: malformed batch files are fatal before any write -/

/-- Claim C6: when some existing batch file's text cannot be split at the
delimiter (the `text.split("\n---\n\n", 1)` of `load_existing_entries`
fails), loading fails with the `MalformedBatchError`
(`LinearSyncError("Unexpected format in ...")`), and the run aborts having
performed NO file operation at all — in particular before any batch write or
deletion. -/
theorem C6_malformed_batch_fatal (files : List (Nat × String)) (n : Nat) (text : String)
    (hmem : (n, text) ∈ files)
    (hbad : containsSeq delimChars text.data = false) :
    (∃ m, loadAll files = .error (SyncError.malformedBatch m)) ∧
    (∀ (parseTs : String → Int) (formatTs : Int → String) (tm td ns st : String)
      (incoming : List Incoming) (now : Int),
      locateWatermark linearLabel st ≠ none →
      (runMain parseTs formatTs tm td ns files st incoming now).1 = [] ∧
      ∃ m, (runMain parseTs formatTs tm td ns files st incoming now).2 =
        .error (SyncError.malformedBatch m)) := by
  obtain ⟨m, hm⟩ := loadAll_malformed files n text hmem hbad
  refine ⟨⟨m, hm⟩, ?_⟩
  intro parseTs formatTs tm td ns st incoming now hwm
  cases hw : locateWatermark linearLabel st with
  | none => exact absurd hw hwm
  | some raw =>
    rw [runMain_load_error parseTs formatTs tm td ns files st incoming now raw
      (SyncError.malformedBatch m) hw hm]
    exact ⟨rfl, m, rfl⟩

/-- Witness for C6 at a concrete input: a single batch file whose text has
no delimiter. -/
theorem C6_malformed_batch_fatal_witness :
    ((1, ("no delimiter in sight" : String)) ∈ [((1 : Nat), ("no delimiter in sight" : String))]) ∧
    containsSeq delimChars ("no delimiter in sight" : String).data = false ∧
    ((∃ m, loadAll [((1 : Nat), ("no delimiter in sight" : String))] =
        .error (SyncError.malformedBatch m)) ∧
      (∀ (parseTs : String → Int) (formatTs : Int → String) (tm td ns st : String)
        (incoming : List Incoming) (now : Int),
        locateWatermark linearLabel st ≠ none →
        (runMain parseTs formatTs tm td ns [((1 : Nat), ("no delimiter in sight" : String))]
          st incoming now).1 = [] ∧
        ∃ m, (runMain parseTs formatTs tm td ns [((1 : Nat), ("no delimiter in sight" : String))]
          st incoming now).2 = .error (SyncError.malformedBatch m))) :=
  ⟨by decide, by decide,
   C6_malformed_batch_fatal [((1 : Nat), ("no delimiter in sight" : String))] 1
     ("no delimiter in sight") (by decide) (by decide)⟩

/-! ## Lemmas: batch association, diffing and deletion -/

theorem mergeAll_nil (ls : Int) (base : List IssueEntry) :
    mergeAll ls base [] = ⟨base, [], [], ls⟩ := rfl

theorem lookupNum_batchAssocGo : ∀ (bs : List (List IssueEntry)) (k i : Nat),
    lookupNum (batchAssocGo k bs) (k + i) = (bs.get? i).map entriesIds := by
  intro bs
  induction bs with
  | nil => intro k i; simp [batchAssocGo, lookupNum]
  | cons b rest ih =>
    intro k i
    rw [batchAssocGo, lookupNum]
    match i with
    | 0 => simp
    | j + 1 =>
      rw [if_neg (by omega)]
      have : k + (j + 1) = (k + 1) + j := by omega
      rw [this, ih (k + 1) j]
      rfl

theorem batchAssocGo_fst_bounds : ∀ (bs : List (List IssueEntry)) (k : Nat),
    ∀ p ∈ batchAssocGo k bs, k ≤ p.1 ∧ p.1 < k + bs.length := by
  intro bs
  induction bs with
  | nil => intro k p hp; simp [batchAssocGo] at hp
  | cons b rest ih =>
    intro k p hp
    rw [batchAssocGo] at hp
    rcases List.mem_cons.mp hp with rfl | hp2
    · simp
    · have := ih (k + 1) p hp2
      constructor <;> [omega; (simp only [List.length_cons]; omega)]

theorem changedBatchesGo_nil_of (assoc : List (Nat × List String)) (touched newIds : List String) :
    ∀ (bs : List (List IssueEntry)) (k : Nat),
      (∀ i b, bs.get? i = some b → ¬ batchChanged assoc touched newIds (k + i) b) →
      changedBatchesGo assoc touched newIds k bs = [] := by
  intro bs
  induction bs with
  | nil => intro k _; rfl
  | cons b rest ih =>
    intro k h
    rw [changedBatchesGo]
    rw [if_neg (by simpa using h 0 b rfl)]
    refine ih (k + 1) ?_
    intro i b' hb'
    have := h (i + 1) b' (by simpa using hb')
    have harith : k + (i + 1) = (k + 1) + i := by omega
    rw [harith] at this
    exact this

theorem deleteNums_nil_of (assoc : List (Nat × List String)) (count : Nat)
    (h : ∀ p ∈ assoc, p.1 ≤ count) : deleteNums assoc count = [] := by
  rw [deleteNums, List.filter_eq_nil_iff]
  intro n hn
  obtain ⟨p, hp, rfl⟩ := List.mem_map.mp hn
  simp only [decide_eq_true_eq]
  have := h p hp
  omega

theorem runCore_ops_shape (f : Int → String) (tm td ns : String) (ls : Int)
    (entries : List IssueEntry) (assoc : List (Nat × List String))
    (st : String) (inc : List Incoming) (now : Int) :
    ∀ op ∈ (runCore f tm td ns ls entries assoc st inc now).1,
      (∃ p ∈ changedBatches (build_batches (mergeAll ls entries inc).entries) assoc
          (mergeAll ls entries inc).touched (mergeAll ls entries inc).newIds,
        op = FileOp.writeBatch p.1 p.2 (render_batch tm ns p.1 p.2)) ∨
      (∃ m ∈ deleteNums assoc (build_batches (mergeAll ls entries inc).entries).length,
        op = FileOp.deleteBatch m) ∨
      (∃ s, op = FileOp.writeStatus s) := by
  intro op hop
  rw [runCore_eq] at hop
  split at hop
  · simp only [List.mem_append] at hop
    rcases hop with hop | hop
    · obtain ⟨p, hp, rfl⟩ := List.mem_map.mp hop
      exact Or.inl ⟨p, hp, rfl⟩
    · obtain ⟨m, hm, rfl⟩ := List.mem_map.mp hop
      exact Or.inr (Or.inl ⟨m, hm, rfl⟩)
  · simp only [List.mem_append] at hop
    rcases hop with (hop | hop) | hop
    · obtain ⟨p, hp, rfl⟩ := List.mem_map.mp hop
      exact Or.inl ⟨p, hp, rfl⟩
    · obtain ⟨m, hm, rfl⟩ := List.mem_map.mp hop
      exact Or.inr (Or.inl ⟨m, hm, rfl⟩)
    · rcases List.mem_singleton.mp hop with rfl
      exact Or.inr (Or.inr ⟨_, rfl⟩)

/-! ## Claim C9: empty incoming means no batch rewrites or deletions -/

/-- Claim C9: on a run with zero incoming records against a baseline
satisfying the batch invariant (the loaded per-batch identifier lists are
exactly the identifier lists of the rebuilt chunks), the diff produces an
empty rewrite set and an empty delete set, and the run performs no batch
write or deletion (its only possible file operation is the status-document
write). -/
theorem C9_empty_incoming_frame (parseTs : String → Int) (formatTs : Int → String)
    (tm td ns : String) (files : List (Nat × String)) (st : String) (now : Int)
    (entries : List IssueEntry) (assoc : List (Nat × List String))
    (hload : loadAll files = .ok (entries, assoc))
    (hassoc : assoc = batchAssocOf entries) :
    changedBatches (build_batches entries) assoc [] [] = [] ∧
    deleteNums assoc (build_batches entries).length = [] ∧
    (∀ op ∈ (runMain parseTs formatTs tm td ns files st [] now).1,
      ∃ s, op = FileOp.writeStatus s) := by
  have hchanged : changedBatches (build_batches entries) assoc [] [] = [] := by
    rw [changedBatches]
    refine changedBatchesGo_nil_of assoc [] [] (build_batches entries) 1 ?_
    intro i b hb
    rw [batchChanged, hassoc, batchAssocOf]
    have : (1 : Nat) + i = 1 + i := rfl
    rw [lookupNum_batchAssocGo (build_batches entries) 1 i, hb]
    simp
  have hdel : deleteNums assoc (build_batches entries).length = [] := by
    refine deleteNums_nil_of assoc _ ?_
    intro p hp
    rw [hassoc, batchAssocOf] at hp
    have := batchAssocGo_fst_bounds (build_batches entries) 1 p hp
    omega
  refine ⟨hchanged, hdel, ?_⟩
  intro op hop
  cases hwm : locateWatermark linearLabel st with
  | none =>
    rw [runMain_wm_none parseTs formatTs tm td ns files st [] now hwm] at hop
    simp at hop
  | some raw =>
    rw [runMain_loaded parseTs formatTs tm td ns files st [] now raw entries assoc hwm hload]
      at hop
    rcases runCore_ops_shape formatTs tm td ns (parseTs raw) entries assoc st [] now op hop with
      ⟨p, hp, _⟩ | ⟨m, hm, _⟩ | hs
    · rw [mergeAll_nil] at hp
      rw [hchanged] at hp
      simp at hp
    · rw [mergeAll_nil] at hm
      rw [hdel] at hm
      simp at hm
    · exact hs

/-- Witness for C9 at a concrete input: one well-formed baseline batch file
and zero incoming records. -/
theorem C9_empty_incoming_frame_witness :
    loadAll [((1 : Nat), ("H\n---\n\n# A-1: t\nx\n---\n\n" : String))] =
      .ok ([(⟨"A-1", "# A-1: t\nx\n---\n\n"⟩ : IssueEntry)], [(1, ["A-1"])]) ∧
    ([((1 : Nat), (["A-1"] : List String))]) =
      batchAssocOf [(⟨"A-1", "# A-1: t\nx\n---\n\n"⟩ : IssueEntry)] ∧
    (changedBatches (build_batches [(⟨"A-1", "# A-1: t\nx\n---\n\n"⟩ : IssueEntry)])
        [(1, ["A-1"])] [] [] = [] ∧
      deleteNums [(1, ["A-1"])]
        (build_batches [(⟨"A-1", "# A-1: t\nx\n---\n\n"⟩ : IssueEntry)]).length = [] ∧
      (∀ op ∈ (runMain (fun _ => 0) (fun t => toString t) ("T") ("D") ("N")
          [((1 : Nat), ("H\n---\n\n# A-1: t\nx\n---\n\n" : String))]
          ("`lastSyncTimestamp`: 1Z\n## Daily Summaries\n- old") [] 5).1,
        ∃ s, op = FileOp.writeStatus s)) :=
  ⟨by decide, by decide,
   C9_empty_incoming_frame (fun _ => 0) (fun t => toString t) ("T") ("D") ("N")
     [((1 : Nat), ("H\n---\n\n# A-1: t\nx\n---\n\n" : String))]
     ("`lastSyncTimestamp`: 1Z\n## Daily Summaries\n- old") 5
     [(⟨"A-1", "# A-1: t\nx\n---\n\n"⟩ : IssueEntry)] [(1, ["A-1"])]
     (by decide) (by decide)⟩

/-! ## Lemmas: indexing the chunks and the changed set -/

theorem changedBatchesGo_mem_iff (assoc : List (Nat × List String)) (touched newIds : List String) :
    ∀ (bs : List (List IssueEntry)) (k n : Nat) (b : List IssueEntry),
      (n, b) ∈ changedBatchesGo assoc touched newIds k bs ↔
        ∃ i, bs.get? i = some b ∧ n = k + i ∧ batchChanged assoc touched newIds n b := by
  intro bs
  induction bs with
  | nil =>
    intro k n b
    simp [changedBatchesGo]
  | cons hd tl ih =>
    intro k n b
    rw [changedBatchesGo]
    by_cases hc : batchChanged assoc touched newIds k hd
    · rw [if_pos hc]
      constructor
      · intro hmem
        rcases List.mem_cons.mp hmem with heq | hmem2
        · obtain ⟨rfl, rfl⟩ := Prod.mk.inj heq
          exact ⟨0, rfl, by omega, hc⟩
        · obtain ⟨i, h1, h2, h3⟩ := (ih (k + 1) n b).mp hmem2
          exact ⟨i + 1, by simpa using h1, by omega, h3⟩
      · rintro ⟨i, h1, h2, h3⟩
        match i with
        | 0 =>
          obtain rfl := Option.some.inj h1
          have : n = k := by omega
          subst this
          exact List.mem_cons_self _ _
        | j + 1 =>
          refine List.mem_cons_of_mem _ ((ih (k + 1) n b).mpr ⟨j, by simpa using h1, by omega, h3⟩)
    · rw [if_neg hc]
      constructor
      · intro hmem
        obtain ⟨i, h1, h2, h3⟩ := (ih (k + 1) n b).mp hmem
        exact ⟨i + 1, by simpa using h1, by omega, h3⟩
      · rintro ⟨i, h1, h2, h3⟩
        match i with
        | 0 =>
          obtain rfl := Option.some.inj h1
          have : n = k := by omega
          subst this
          exact absurd h3 hc
        | j + 1 =>
          exact (ih (k + 1) n b).mpr ⟨j, by simpa using h1, by omega, h3⟩

theorem changedBatchesGo_single (assoc : List (Nat × List String)) (touched newIds : List String) :
    ∀ (bs : List (List IssueEntry)) (k i : Nat) (b : List IssueEntry),
      bs.get? i = some b →
      batchChanged assoc touched newIds (k + i) b →
      (∀ j b', bs.get? j = some b' → j ≠ i → ¬ batchChanged assoc touched newIds (k + j) b') →
      changedBatchesGo assoc touched newIds k bs = [(k + i, b)] := by
  intro bs
  induction bs with
  | nil =>
    intro k i b h1 _ _
    simp at h1
  | cons hd tl ih =>
    intro k i b h1 h2 h3
    match i with
    | 0 =>
      obtain rfl := Option.some.inj h1
      rw [changedBatchesGo]
      rw [if_pos (by simpa using h2)]
      rw [changedBatchesGo_nil_of assoc touched newIds tl (k + 1) ?_]
      · simp
      · intro j b' hb' hch
        have := h3 (j + 1) b' (by simpa using hb') (by omega)
        have harith : k + (j + 1) = (k + 1) + j := by omega
        rw [harith] at this
        exact this hch
    | j + 1 =>
      rw [changedBatchesGo]
      rw [if_neg (h3 0 hd rfl (by omega) ∘ (by simpa using ·))]
      have harith : k + (j + 1) = (k + 1) + j := by omega
      rw [harith] at h2
      rw [ih (k + 1) j b (by simpa using h1) h2 ?_]
      · rw [← harith]
      · intro j2 b' hb' hj2
        have := h3 (j2 + 1) b' (by simpa using hb') (by omega)
        have harith2 : k + (j2 + 1) = (k + 1) + j2 := by omega
        rw [harith2] at this
        exact this

theorem chunksTD_get? : ∀ (i : Nat) (l : List IssueEntry),
    (chunksTD l).get? i =
      if BATCH_SIZE * i < l.length then
        some ((l.drop (BATCH_SIZE * i)).take BATCH_SIZE)
      else none := by
  intro i
  induction i with
  | zero =>
    intro l
    cases l with
    | nil => rw [chunksTD_nil]; simp
    | cons e rest =>
      rw [chunksTD_cons]
      simp
  | succ i ih =>
    intro l
    cases l with
    | nil => rw [chunksTD_nil]; simp
    | cons e rest =>
      rw [chunksTD_cons]
      have : ((e :: rest).take BATCH_SIZE :: chunksTD ((e :: rest).drop BATCH_SIZE)).get? (i + 1) =
          (chunksTD ((e :: rest).drop BATCH_SIZE)).get? i := rfl
      rw [this, ih ((e :: rest).drop BATCH_SIZE)]
      rw [List.length_drop, List.drop_drop]
      have harith : BATCH_SIZE + BATCH_SIZE * i = BATCH_SIZE * (i + 1) := by ring
      rw [harith]
      by_cases hc : BATCH_SIZE * (i + 1) < (e :: rest).length
      · rw [if_pos ?_, if_pos hc]
        simp only [BATCH_SIZE, List.length_cons] at hc ⊢
        omega
      · rw [if_neg ?_, if_neg hc]
        simp only [BATCH_SIZE, List.length_cons] at hc ⊢
        omega

theorem chunksTD_length_congr : ∀ (n : Nat) (l1 l2 : List IssueEntry), l1.length ≤ n →
    l1.length = l2.length → (chunksTD l1).length = (chunksTD l2).length := by
  intro n
  induction n with
  | zero =>
    intro l1 l2 hb he
    have h1 : l1 = [] := List.length_eq_zero.mp (by omega)
    have h2 : l2 = [] := List.length_eq_zero.mp (by omega)
    rw [h1, h2]
  | succ n ih =>
    intro l1 l2 hb he
    cases l1 with
    | nil =>
      obtain rfl : l2 = [] := List.length_eq_zero.mp (by simpa using he.symm)
      rfl
    | cons e1 r1 =>
      cases l2 with
      | nil => simp at he
      | cons e2 r2 =>
        rw [chunksTD_cons, chunksTD_cons]
        simp only [List.length_cons]
        refine congrArg Nat.succ (ih _ _ ?_ ?_)
        · simp only [List.length_drop, List.length_cons, BATCH_SIZE] at hb ⊢
          omega
        · simp only [List.length_drop]
          rw [he]

theorem mergeAll_single_pos (ls : Int) (entries : List IssueEntry) (r : Incoming)
    (hc : r.identifier ∈ entriesIds entries) :
    mergeAll ls entries [r] =
      ⟨replaceContent entries r.identifier r.content, [r.identifier], [],
        if r.updatedAt > ls then r.updatedAt else ls⟩ := by
  rw [mergeAll, List.foldl_cons, List.foldl_nil]
  rw [mergeStep_pos ⟨entries, [], [], ls⟩ r hc]
  rfl

theorem entriesIds_drop_take (l : List IssueEntry) (a c : Nat) :
    entriesIds ((l.drop a).take c) = ((entriesIds l).drop a).take c := by
  simp [entriesIds, List.map_take, List.map_drop]

/-! ## Claim C5: which batches are rewritten, which deleted -/

/-- Claim C5: a batch index is marked for rewrite iff its member-id sequence
differs from the old batch at the same index or some member of the new batch
carries an identifier fetched this run (i.e. added or modified this run); an
old batch index above the new batch count is deleted; and — Scenario B —
when the single incoming record matches an existing id (whose sort key is
determined by that id, hence unchanged) in a baseline satisfying the batch
invariant, exactly the one batch containing that id is rewritten and nothing
is deleted. -/
theorem C5_rewrite_marking (ls : Int) (entries : List IssueEntry) (incoming : List Incoming)
    (assoc : List (Nat × List String)) :
    (∀ n b, (n, b) ∈ changedBatches (build_batches (mergeAll ls entries incoming).entries) assoc
        (mergeAll ls entries incoming).touched (mergeAll ls entries incoming).newIds ↔
      ∃ i, (build_batches (mergeAll ls entries incoming).entries).get? i = some b ∧ n = 1 + i ∧
        (entriesIds b ≠ (lookupNum assoc n).getD [] ∨
          ∃ id ∈ entriesIds b, id ∈ incoming.map (fun q => q.identifier))) ∧
    (∀ m, m ∈ deleteNums assoc (build_batches (mergeAll ls entries incoming).entries).length ↔
      m ∈ assoc.map Prod.fst ∧
        (build_batches (mergeAll ls entries incoming).entries).length < m) ∧
    (∀ r : Incoming, incoming = [r] → r.identifier ∈ entriesIds entries →
      (entriesIds entries).Nodup → assoc = batchAssocOf entries →
      ∃ i b, (build_batches (mergeAll ls entries [r]).entries).get? i = some b ∧
        r.identifier ∈ entriesIds b ∧
        changedBatches (build_batches (mergeAll ls entries [r]).entries) assoc
          (mergeAll ls entries [r]).touched (mergeAll ls entries [r]).newIds = [(1 + i, b)] ∧
        deleteNums assoc (build_batches (mergeAll ls entries [r]).entries).length = []) := by
  have hbridge : ∀ id, (id ∈ (mergeAll ls entries incoming).touched ∨
      id ∈ (mergeAll ls entries incoming).newIds) ↔
        id ∈ incoming.map (fun q => q.identifier) := by
    intro id
    rw [mergeAll, foldl_mergeStep_touchedNew_iff]
    simp
  refine ⟨?_, ?_, ?_⟩
  · intro n b
    rw [changedBatches, changedBatchesGo_mem_iff]
    constructor
    · rintro ⟨i, h1, h2, h3 | ⟨id, hid, h4⟩⟩
      · exact ⟨i, h1, h2, Or.inl h3⟩
      · exact ⟨i, h1, h2, Or.inr ⟨id, hid, (hbridge id).mp h4⟩⟩
    · rintro ⟨i, h1, h2, h3 | ⟨id, hid, h4⟩⟩
      · exact ⟨i, h1, h2, Or.inl h3⟩
      · exact ⟨i, h1, h2, Or.inr ⟨id, hid, (hbridge id).mpr h4⟩⟩
  · intro m
    rw [deleteNums, List.mem_filter]
    simp
  · intro r hinc hr hnodup hassoc
    subst hinc
    subst hassoc
    have hms := mergeAll_single_pos ls entries r hr
    have hidsEq : entriesIds (mergeAll ls entries [r]).entries = entriesIds entries := by
      rw [hms]
      exact entriesIds_replaceContent entries r.identifier r.content
    have hlenEq : (mergeAll ls entries [r]).entries.length = entries.length := by
      rw [hms]
      exact length_replaceContent entries r.identifier r.content
    have htouched : (mergeAll ls entries [r]).touched = [r.identifier] := by rw [hms]
    have hnewIds : (mergeAll ls entries [r]).newIds = [] := by rw [hms]
    obtain ⟨p, hp⟩ := List.mem_iff_get?.mp hr
    have hplen : p < (entriesIds entries).length := by
      rcases List.get?_eq_some.mp hp with ⟨h, _⟩
      exact h
    have hplen2 : p < entries.length := by simpa [entriesIds] using hplen
    have hBpos : 0 < BATCH_SIZE := by simp [BATCH_SIZE]
    have hcondi : BATCH_SIZE * (p / BATCH_SIZE) < (mergeAll ls entries [r]).entries.length := by
      rw [hlenEq]
      calc BATCH_SIZE * (p / BATCH_SIZE) = p / BATCH_SIZE * BATCH_SIZE := Nat.mul_comm _ _
        _ ≤ p := Nat.div_mul_le_self p BATCH_SIZE
        _ < entries.length := hplen2
    have hget : (build_batches (mergeAll ls entries [r]).entries).get? (p / BATCH_SIZE) =
        some (((mergeAll ls entries [r]).entries.drop
          (BATCH_SIZE * (p / BATCH_SIZE))).take BATCH_SIZE) := by
      rw [build_batches_eq_chunksTD, chunksTD_get?, if_pos hcondi]
    have hidsb : entriesIds (((mergeAll ls entries [r]).entries.drop
        (BATCH_SIZE * (p / BATCH_SIZE))).take BATCH_SIZE) =
        ((entriesIds entries).drop (BATCH_SIZE * (p / BATCH_SIZE))).take BATCH_SIZE := by
      rw [entriesIds_drop_take, hidsEq]
    have hqmem : (entriesIds (((mergeAll ls entries [r]).entries.drop
        (BATCH_SIZE * (p / BATCH_SIZE))).take BATCH_SIZE)).get? (p % BATCH_SIZE) =
          some r.identifier := by
      rw [hidsb, List.get?_take (Nat.mod_lt p hBpos), List.get?_drop]
      rw [Nat.div_add_mod p BATCH_SIZE]
      exact hp
    have hmemb : r.identifier ∈ entriesIds (((mergeAll ls entries [r]).entries.drop
        (BATCH_SIZE * (p / BATCH_SIZE))).take BATCH_SIZE) := List.get?_mem hqmem
    have huniq : ∀ j b', (build_batches (mergeAll ls entries [r]).entries).get? j = some b' →
        r.identifier ∈ entriesIds b' → j = p / BATCH_SIZE := by
      intro j b' hj hmem'
      rw [build_batches_eq_chunksTD, chunksTD_get?] at hj
      by_cases hcj : BATCH_SIZE * j < (mergeAll ls entries [r]).entries.length
      · rw [if_pos hcj] at hj
        injection hj with hj2
        rw [← hj2, entriesIds_drop_take, hidsEq] at hmem'
        obtain ⟨q', hq'⟩ := List.mem_iff_get?.mp hmem'
        have hq'lt : q' < BATCH_SIZE := by
          rcases List.get?_eq_some.mp hq' with ⟨hlt, _⟩
          rw [List.length_take] at hlt
          omega
        rw [List.get?_take hq'lt, List.get?_drop] at hq'
        have hjlt : BATCH_SIZE * j + q' < (entriesIds entries).length := by
          rcases List.get?_eq_some.mp hq' with ⟨hlt, _⟩
          exact hlt
        have hij := List.get?_inj hjlt hnodup (hq'.trans hp.symm)
        rw [← hij]
        rw [Nat.mul_add_div hBpos, Nat.div_eq_of_lt hq'lt]
        omega
      · rw [if_neg hcj] at hj
        simp at hj
    refine ⟨p / BATCH_SIZE, _, hget, hmemb, ?_, ?_⟩
    · rw [changedBatches]
      refine changedBatchesGo_single _ _ _ _ 1 (p / BATCH_SIZE) _ hget ?_ ?_
      · exact Or.inr ⟨r.identifier, hmemb, Or.inl (by rw [htouched]; simp)⟩
      · intro j b' hj hne hch
        rcases hch with hch | ⟨id, hidb', hidin⟩
        · refine hch ?_
          rw [build_batches_eq_chunksTD, chunksTD_get?] at hj
          by_cases hcj : BATCH_SIZE * j < (mergeAll ls entries [r]).entries.length
          · rw [if_pos hcj] at hj
            injection hj with hj2
            rw [batchAssocOf, lookupNum_batchAssocGo (build_batches entries) 1 j]
            rw [build_batches_eq_chunksTD, chunksTD_get?,
              if_pos (by rw [← hlenEq]; exact hcj)]
            simp only [Option.map_some', Option.getD_some]
            rw [← hj2, entriesIds_drop_take, hidsEq, entriesIds_drop_take]
          · rw [if_neg hcj] at hj
            simp at hj
        · rw [htouched, hnewIds] at hidin
          rcases hidin with hidin | hidin
          · rcases List.mem_singleton.mp hidin with rfl
            exact hne (huniq j b' hj hidb')
          · simp at hidin
    · have hcount : (build_batches (mergeAll ls entries [r]).entries).length =
          (build_batches entries).length := by
        rw [build_batches_eq_chunksTD, build_batches_eq_chunksTD]
        exact chunksTD_length_congr ((mergeAll ls entries [r]).entries.length) _ _
          (le_refl _) hlenEq
      refine deleteNums_nil_of _ _ ?_
      intro q hq
      have := batchAssocGo_fst_bounds (build_batches entries) 1 q hq
      rw [hcount]
      omega

theorem C5_rewrite_marking_witness :
    ("A-1" : String) ∈ entriesIds [⟨"A-1", "# A-1: old"⟩, ⟨"A-2", "# A-2: b"⟩] ∧
    (entriesIds [(⟨"A-1", "# A-1: old"⟩ : IssueEntry), ⟨"A-2", "# A-2: b"⟩]).Nodup ∧
    (∃ i b,
      (build_batches (mergeAll 0 [⟨"A-1", "# A-1: old"⟩, ⟨"A-2", "# A-2: b"⟩]
          [⟨"A-1", "# A-1: new", 5⟩]).entries).get? i = some b ∧
      ("A-1" : String) ∈ entriesIds b ∧
      changedBatches
          (build_batches (mergeAll 0 [⟨"A-1", "# A-1: old"⟩, ⟨"A-2", "# A-2: b"⟩]
            [⟨"A-1", "# A-1: new", 5⟩]).entries)
          (batchAssocOf [⟨"A-1", "# A-1: old"⟩, ⟨"A-2", "# A-2: b"⟩])
          (mergeAll 0 [⟨"A-1", "# A-1: old"⟩, ⟨"A-2", "# A-2: b"⟩]
            [⟨"A-1", "# A-1: new", 5⟩]).touched
          (mergeAll 0 [⟨"A-1", "# A-1: old"⟩, ⟨"A-2", "# A-2: b"⟩]
            [⟨"A-1", "# A-1: new", 5⟩]).newIds = [(1 + i, b)] ∧
      deleteNums (batchAssocOf [⟨"A-1", "# A-1: old"⟩, ⟨"A-2", "# A-2: b"⟩])
        (build_batches (mergeAll 0 [⟨"A-1", "# A-1: old"⟩, ⟨"A-2", "# A-2: b"⟩]
          [⟨"A-1", "# A-1: new", 5⟩]).entries).length = []) :=
  ⟨by decide, by decide,
    (C5_rewrite_marking 0 [⟨"A-1", "# A-1: old"⟩, ⟨"A-2", "# A-2: b"⟩]
        [⟨"A-1", "# A-1: new", 5⟩]
        (batchAssocOf [⟨"A-1", "# A-1: old"⟩, ⟨"A-2", "# A-2: b"⟩])).2.2
      ⟨"A-1", "# A-1: new", 5⟩ rfl (by decide) (by decide) rfl⟩

/-! ## Claim C7: the summary-section edit of the two status documents -/

theorem takeWhile_append_of_all {α : Type} (p : α → Bool) (l1 l2 : List α)
    (h : ∀ a ∈ l1, p a = true) :
    (l1 ++ l2).takeWhile p = l1 ++ l2.takeWhile p := by
  induction l1 with
  | nil => simp
  | cons a t ih =>
    have ha := h a (by simp)
    simp only [List.cons_append, List.takeWhile_cons, ha, if_true]
    rw [ih (fun b hb => h b (by simp [hb]))]

theorem dropWhile_append_of_all {α : Type} (p : α → Bool) (l1 l2 : List α)
    (h : ∀ a ∈ l1, p a = true) :
    (l1 ++ l2).dropWhile p = l2.dropWhile p := by
  induction l1 with
  | nil => simp
  | cons a t ih =>
    have ha := h a (by simp)
    simp only [List.cons_append, List.dropWhile_cons, ha, if_true]
    exact ih (fun b hb => h b (by simp [hb]))

theorem dropWhile_head_false {α : Type} (p : α → Bool) (l : List α)
    (h : ∀ a ∈ l.head?, p a = false) : l.dropWhile p = l := by
  cases l with
  | nil => rfl
  | cons a t =>
    have ha := h a (by simp)
    simp [List.dropWhile_cons, ha]

theorem blank_false_of_bullet (x : String) (h : bulletAfterStrip x = true) :
    isBlankLine x = false := by
  rw [bulletAfterStrip] at h
  rw [isBlankLine]
  cases hs : stripC x.data with
  | nil => rw [hs] at h; simp [isPrefixOfC] at h
  | cons a t => simp

theorem blank_false_of_placeholder (x : String)
    (h : String.mk (stripC x.data) = noneYetPlaceholder) : isBlankLine x = false := by
  have hd : stripC x.data = noneYetPlaceholder.data := congrArg String.data h
  rw [isBlankLine, hd]
  decide

theorem linearSectionInsert_bullet (summaryLine : String) (blanks : List String)
    (x : String) (bullets tail : List String)
    (hblanks : ∀ l ∈ blanks, isBlankLine l = true)
    (hx : bulletAfterStrip x = true)
    (hbullets : ∀ l ∈ bullets, (!isBlankLine l && bulletAfterLstrip l) = true)
    (htail : ∀ a ∈ tail.head?,
      (!isBlankLine a && bulletAfterLstrip a) = false ∧ isBlankLine a = false) :
    linearSectionInsert summaryLine (blanks ++ x :: (bullets ++ tail)) =
      blanks ++ summaryLine :: tail := by
  have hxnb : isBlankLine x = false := blank_false_of_bullet x hx
  simp only [linearSectionInsert]
  rw [takeWhile_append_of_all _ _ _ hblanks, dropWhile_append_of_all _ _ _ hblanks]
  simp only [List.takeWhile_cons, List.dropWhile_cons, hxnb, Bool.false_eq_true, if_false,
    List.append_nil]
  rw [if_pos hx]
  rw [dropWhile_append_of_all _ _ _ hbullets,
    dropWhile_head_false _ _ (fun a ha => (htail a ha).1),
    dropWhile_head_false _ _ (fun a ha => (htail a ha).2)]

theorem notionSectionInsert_placeholder (summaryLine : String) (blanks : List String)
    (x : String) (rest : List String)
    (hblanks : ∀ l ∈ blanks, isBlankLine l = true)
    (hx : String.mk (stripC x.data) = noneYetPlaceholder) :
    notionSectionInsert summaryLine (blanks ++ x :: rest) =
      blanks ++ summaryLine :: rest := by
  have hxnb : isBlankLine x = false := blank_false_of_placeholder x hx
  simp only [notionSectionInsert]
  rw [takeWhile_append_of_all _ _ _ hblanks, dropWhile_append_of_all _ _ _ hblanks]
  simp only [List.takeWhile_cons, List.dropWhile_cons, hxnb, Bool.false_eq_true, if_false,
    List.append_nil]
  rw [if_pos hx]

theorem notionSectionInsert_retains (summaryLine : String) (blanks : List String)
    (x : String) (rest : List String)
    (hblanks : ∀ l ∈ blanks, isBlankLine l = true)
    (hxnb : isBlankLine x = false) :
    notionSectionInsert summaryLine (blanks ++ x :: rest) =
      blanks ++ (if String.mk (stripC x.data) = noneYetPlaceholder
        then summaryLine :: rest else summaryLine :: x :: rest) := by
  simp only [notionSectionInsert]
  rw [takeWhile_append_of_all _ _ _ hblanks, dropWhile_append_of_all _ _ _ hblanks]
  simp only [List.takeWhile_cons, List.dropWhile_cons, hxnb, Bool.false_eq_true, if_false,
    List.append_nil]
  by_cases hph : String.mk (stripC x.data) = noneYetPlaceholder
  · rw [if_pos hph, if_pos hph]
  · rw [if_neg hph, if_neg hph]
    by_cases hb : bulletAfterStrip x = true
    · rw [if_pos hb]
    · rw [if_neg hb]

/-- Claim C7 counterexample: after a successful run of the Notion script over a
status document whose summary section already holds a bulleted entry, TWO
bulleted lines are visible under the heading — the new summary is inserted in
front of the previous entry, which is retained, contradicting "replacing any
immediately-preceding placeholder/previous entry so only the latest line is
visible per section". -/
theorem C7_notion_retains_counterexample :
    notionUpdateStatusDoc
        ["`lastIncrementalSyncTimestamp`: 1Z", notionHeading, "- old"] "2Z" "- NEW" =
      .ok ["`lastIncrementalSyncTimestamp`: 2Z", notionHeading, "- NEW", "- old"] ∧
    (["`lastIncrementalSyncTimestamp`: 2Z", notionHeading, "- NEW", "- old"].filter
        (fun l => bulletAfterStrip l)).length = 2 := by
  constructor
  · decide
  · decide

/-- Claim C7 (amended): after rewriting the watermark line and locating the
heading, (L) the Linear script overwrites the first bulleted entry after the
section's leading blank lines with this run's summary line and drops the
immediately following run of bulleted lines and trailing blanks, so only the
latest line remains there; (N1) the Notion script replaces a `_None yet_`
placeholder with the summary line; but (N2) when a bulleted (or any other
non-placeholder, non-blank) line follows the heading, the Notion script merely
inserts the summary line in front of it, retaining the previous entries. -/
theorem C7_summary_section_edit (newTs summaryLine : String) :
    (∀ docLines doc1 pre blanks x bullets tail,
      subFirstTokenLine linearLabel newTs docLines = some doc1 →
      splitAtHeading linearHeading doc1 = some (pre, blanks ++ x :: (bullets ++ tail)) →
      (∀ l ∈ blanks, isBlankLine l = true) →
      bulletAfterStrip x = true →
      (∀ l ∈ bullets, (!isBlankLine l && bulletAfterLstrip l) = true) →
      (∀ a ∈ tail.head?,
        (!isBlankLine a && bulletAfterLstrip a) = false ∧ isBlankLine a = false) →
      linearUpdateStatusDoc docLines newTs summaryLine =
        .ok (pre ++ linearHeading :: (blanks ++ summaryLine :: tail))) ∧
    (∀ docLines doc1 pre blanks x rest,
      subFirstTokenLine notionLabel newTs docLines = some doc1 →
      splitAtHeading notionHeading doc1 = some (pre, blanks ++ x :: rest) →
      (∀ l ∈ blanks, isBlankLine l = true) →
      String.mk (stripC x.data) = noneYetPlaceholder →
      notionUpdateStatusDoc docLines newTs summaryLine =
        .ok (pre ++ notionHeading :: (blanks ++ summaryLine :: rest))) ∧
    (∀ docLines doc1 pre blanks x rest,
      subFirstTokenLine notionLabel newTs docLines = some doc1 →
      splitAtHeading notionHeading doc1 = some (pre, blanks ++ x :: rest) →
      (∀ l ∈ blanks, isBlankLine l = true) →
      isBlankLine x = false →
      String.mk (stripC x.data) ≠ noneYetPlaceholder →
      notionUpdateStatusDoc docLines newTs summaryLine =
        .ok (pre ++ notionHeading :: (blanks ++ summaryLine :: x :: rest))) := by
  refine ⟨?_, ?_, ?_⟩
  · intro docLines doc1 pre blanks x bullets tail hsub hsplit hblanks hx hbullets htail
    rw [linearUpdateStatusDoc, hsub]
    dsimp only
    rw [hsplit]
    dsimp only
    rw [linearSectionInsert_bullet summaryLine blanks x bullets tail hblanks hx hbullets htail]
  · intro docLines doc1 pre blanks x rest hsub hsplit hblanks hx
    rw [notionUpdateStatusDoc, hsub]
    dsimp only
    rw [hsplit]
    dsimp only
    rw [notionSectionInsert_placeholder summaryLine blanks x rest hblanks hx]
  · intro docLines doc1 pre blanks x rest hsub hsplit hblanks hxnb hx
    rw [notionUpdateStatusDoc, hsub]
    dsimp only
    rw [hsplit]
    dsimp only
    rw [notionSectionInsert_retains summaryLine blanks x rest hblanks hxnb, if_neg hx]

theorem C7_summary_section_edit_witness :
    bulletAfterStrip "- old1" = true ∧
    String.mk (stripC noneYetPlaceholder.data) = noneYetPlaceholder ∧
    isBlankLine "- keep" = false ∧
    linearUpdateStatusDoc
        ["`lastSyncTimestamp`: 1Z", linearHeading, "", "- old1", "- old2"] "2Z" "- NEW" =
      .ok (["`lastSyncTimestamp`: 2Z"] ++ linearHeading :: ([""] ++ "- NEW" :: [])) ∧
    notionUpdateStatusDoc
        ["`lastIncrementalSyncTimestamp`: 1Z", notionHeading, noneYetPlaceholder]
        "2Z" "- NEW" =
      .ok (["`lastIncrementalSyncTimestamp`: 2Z"] ++
        notionHeading :: ([] ++ "- NEW" :: [])) ∧
    notionUpdateStatusDoc
        ["`lastIncrementalSyncTimestamp`: 1Z", notionHeading, "- keep"] "2Z" "- NEW" =
      .ok (["`lastIncrementalSyncTimestamp`: 2Z"] ++
        notionHeading :: ([] ++ "- NEW" :: "- keep" :: [])) :=
  ⟨by decide, by decide, by decide,
    (C7_summary_section_edit "2Z" "- NEW").1
      ["`lastSyncTimestamp`: 1Z", linearHeading, "", "- old1", "- old2"]
      ["`lastSyncTimestamp`: 2Z", linearHeading, "", "- old1", "- old2"]
      ["`lastSyncTimestamp`: 2Z"] [""] "- old1" ["- old2"] []
      (by decide) (by decide) (by decide) (by decide) (by decide) (by simp),
    (C7_summary_section_edit "2Z" "- NEW").2.1
      ["`lastIncrementalSyncTimestamp`: 1Z", notionHeading, noneYetPlaceholder]
      ["`lastIncrementalSyncTimestamp`: 2Z", notionHeading, noneYetPlaceholder]
      ["`lastIncrementalSyncTimestamp`: 2Z"] [] noneYetPlaceholder []
      (by decide) (by decide) (by decide) (by decide),
    (C7_summary_section_edit "2Z" "- NEW").2.2
      ["`lastIncrementalSyncTimestamp`: 1Z", notionHeading, "- keep"]
      ["`lastIncrementalSyncTimestamp`: 2Z", notionHeading, "- keep"]
      ["`lastIncrementalSyncTimestamp`: 2Z"] [] "- keep" []
      (by decide) (by decide) (by decide) (by decide) (by decide)⟩

/-! ## Claim C1: coverage of the output batch files -/

theorem applyOps_cons (disk : Nat → Option (List String)) (op : FileOp) (ops : List FileOp) :
    applyOps disk (op :: ops) = applyOps (applyOp disk op) ops := rfl

theorem applyOps_append (disk : Nat → Option (List String)) (ops1 ops2 : List FileOp) :
    applyOps disk (ops1 ++ ops2) = applyOps (applyOps disk ops1) ops2 := by
  rw [applyOps, applyOps, applyOps, List.foldl_append]

theorem applyOp_writeBatch (disk : Nat → Option (List String)) (n : Nat)
    (b : List IssueEntry) (s : String) (m : Nat) :
    applyOp disk (FileOp.writeBatch n b s) m = if m = n then some (entriesIds b) else disk m := rfl

theorem applyOp_deleteBatch (disk : Nat → Option (List String)) (n m : Nat) :
    applyOp disk (FileOp.deleteBatch n) m = if m = n then none else disk m := rfl

theorem applyOp_writeStatus (disk : Nat → Option (List String)) (s : String) (m : Nat) :
    applyOp disk (FileOp.writeStatus s) m = disk m := rfl

theorem applyOps_deletes : ∀ (nums : List Nat) (disk : Nat → Option (List String)) (n : Nat),
    applyOps disk (nums.map FileOp.deleteBatch) n = if n ∈ nums then none else disk n := by
  intro nums
  induction nums with
  | nil => intro disk n; simp [applyOps]
  | cons m rest ih =>
    intro disk n
    rw [List.map_cons, applyOps_cons, ih]
    by_cases h1 : n ∈ rest
    · rw [if_pos h1, if_pos (List.mem_cons.mpr (Or.inr h1))]
    · rw [if_neg h1, applyOp_deleteBatch]
      by_cases h2 : n = m
      · rw [if_pos h2, if_pos (List.mem_cons.mpr (Or.inl h2))]
      · rw [if_neg h2, if_neg (by simp only [List.mem_cons, not_or]; exact ⟨h2, h1⟩)]

theorem applyOps_writes_notin (f : Nat × List IssueEntry → String) :
    ∀ (changed : List (Nat × List IssueEntry)) (disk : Nat → Option (List String)) (n : Nat),
      n ∉ changed.map Prod.fst →
      applyOps disk (changed.map (fun p => FileOp.writeBatch p.1 p.2 (f p))) n = disk n := by
  intro changed
  induction changed with
  | nil => intro disk n _; rfl
  | cons p rest ih =>
    intro disk n hn
    have h1 : n ≠ p.1 := fun h => hn (by simp [h])
    have h2 : n ∉ rest.map Prod.fst := fun h => hn (by simp [h])
    rw [List.map_cons, applyOps_cons, ih _ n h2, applyOp_writeBatch, if_neg h1]

theorem applyOps_writes_mem (f : Nat × List IssueEntry → String) :
    ∀ (changed : List (Nat × List IssueEntry)) (disk : Nat → Option (List String))
      (n : Nat) (b : List IssueEntry),
      (changed.map Prod.fst).Nodup → (n, b) ∈ changed →
      applyOps disk (changed.map (fun p => FileOp.writeBatch p.1 p.2 (f p))) n =
        some (entriesIds b) := by
  intro changed
  induction changed with
  | nil => intro disk n b _ h; simp at h
  | cons p rest ih =>
    intro disk n b hnd hmem
    rw [List.map_cons, applyOps_cons]
    rcases List.mem_cons.mp hmem with heq | hmem2
    · subst heq
      have hrest : n ∉ rest.map Prod.fst := by
        rw [List.map_cons] at hnd
        simpa using (List.nodup_cons.mp hnd).1
      rw [applyOps_writes_notin f rest _ n hrest, applyOp_writeBatch, if_pos rfl]
    · have hnd2 : (rest.map Prod.fst).Nodup := by
        rw [List.map_cons] at hnd
        exact (List.nodup_cons.mp hnd).2
      exact ih _ n b hnd2 hmem2

theorem changedBatchesGo_fst_lb (assoc : List (Nat × List String)) (touched newIds : List String) :
    ∀ (bs : List (List IssueEntry)) (k : Nat),
      ∀ p ∈ changedBatchesGo assoc touched newIds k bs, k ≤ p.1 := by
  intro bs
  induction bs with
  | nil => intro k p hp; simp [changedBatchesGo] at hp
  | cons b rest ih =>
    intro k p hp
    rw [changedBatchesGo] at hp
    by_cases hc : batchChanged assoc touched newIds k b
    · rw [if_pos hc] at hp
      rcases List.mem_cons.mp hp with rfl | hp2
      · simp
      · have := ih (k + 1) p hp2
        omega
    · rw [if_neg hc] at hp
      have := ih (k + 1) p hp
      omega

theorem changedBatchesGo_fst_nodup (assoc : List (Nat × List String))
    (touched newIds : List String) :
    ∀ (bs : List (List IssueEntry)) (k : Nat),
      ((changedBatchesGo assoc touched newIds k bs).map Prod.fst).Nodup := by
  intro bs
  induction bs with
  | nil => intro k; simp [changedBatchesGo]
  | cons b rest ih =>
    intro k
    rw [changedBatchesGo]
    by_cases hc : batchChanged assoc touched newIds k b
    · rw [if_pos hc, List.map_cons, List.nodup_cons]
      refine ⟨?_, ih (k + 1)⟩
      intro hmem
      obtain ⟨p, hp, hpk⟩ := List.mem_map.mp hmem
      have := changedBatchesGo_fst_lb assoc touched newIds rest (k + 1) p hp
      omega
    · rw [if_neg hc]
      exact ih (k + 1)

theorem deleteNums_mem_iff (assoc : List (Nat × List String)) (count m : Nat) :
    m ∈ deleteNums assoc count ↔ m ∈ assoc.map Prod.fst ∧ count < m := by
  rw [deleteNums, List.mem_filter]
  simp

theorem lookupNum_eq_none_of : ∀ (assoc : List (Nat × List String)) (n : Nat),
    n ∉ assoc.map Prod.fst → lookupNum assoc n = none := by
  intro assoc
  induction assoc with
  | nil => intro n _; rfl
  | cons p rest ih =>
    intro n hn
    obtain ⟨m, ids⟩ := p
    have h1 : m ≠ n := fun h => hn (by simp [h])
    rw [lookupNum, if_neg h1]
    exact ih n (fun h => hn (by simp [h]))

theorem chunksTD_flatten : ∀ (n : Nat) (l : List IssueEntry), l.length ≤ n →
    (chunksTD l).flatten = l := by
  intro n
  induction n with
  | zero =>
    intro l h
    cases l with
    | nil => rw [chunksTD_nil]; rfl
    | cons e rest => simp at h
  | succ n ih =>
    intro l h
    cases l with
    | nil => rw [chunksTD_nil]; rfl
    | cons e rest =>
      rw [chunksTD_cons, List.flatten_cons]
      rw [ih ((e :: rest).drop BATCH_SIZE) (by
        rw [List.length_drop]
        simp only [List.length_cons] at h ⊢
        have hB : 0 < BATCH_SIZE := by simp [BATCH_SIZE]
        omega)]
      exact List.take_append_drop BATCH_SIZE (e :: rest)

theorem entriesIds_flatten (L : List (List IssueEntry)) :
    (L.map entriesIds).flatten = entriesIds L.flatten := by
  rw [entriesIds, List.map_flatten]
  refine congrArg List.flatten ?_
  refine List.map_congr_left ?_
  intro l _
  rfl

theorem range_map_get?_ids : ∀ (L : List (List IssueEntry)),
    (List.range L.length).map (fun i => ((L.get? i).map entriesIds).getD []) =
      L.map entriesIds := by
  intro L
  induction L with
  | nil => rfl
  | cons a t ih =>
    have hstep : (List.range (a :: t).length).map
        (fun i => (((a :: t).get? i).map entriesIds).getD []) =
        entriesIds a :: (List.range t.length).map
          (fun i => ((t.get? i).map entriesIds).getD []) := by
      rw [List.length_cons, List.range_succ_eq_map, List.map_cons, List.map_map]
      refine congrArg (List.cons (entriesIds a)) ?_
      refine List.map_congr_left ?_
      intro i _
      rfl
    rw [hstep, ih, List.map_cons]

theorem build_batches_length_full (l : List IssueEntry) (i : Nat) (b : List IssueEntry)
    (hb : (build_batches l).get? i = some b) (hi : i + 1 < (build_batches l).length) :
    b.length = BATCH_SIZE := by
  rw [build_batches_eq_chunksTD] at hb hi
  have hnext : (chunksTD l).get? (i + 1) ≠ none := by
    intro hc
    rw [List.get?_eq_none] at hc
    omega
  rw [chunksTD_get?] at hnext hb
  by_cases h2 : BATCH_SIZE * (i + 1) < l.length
  · by_cases h1 : BATCH_SIZE * i < l.length
    · rw [if_pos h1] at hb
      have hbeq : (l.drop (BATCH_SIZE * i)).take BATCH_SIZE = b := Option.some.inj hb
      rw [← hbeq, List.length_take, List.length_drop]
      have hB : BATCH_SIZE = 50 := rfl
      rw [hB] at h2 ⊢
      rw [Nat.min_def, if_pos (by omega)]
    · rw [if_neg h1] at hb
      simp at hb
  · rw [if_neg h2] at hnext
    simp at hnext

/-- Claim C1: on a run whose baseline loads successfully, satisfies the batch
invariant (the stored per-batch identifier lists are those of the rebuilt
chunks), is sorted by sort key and has unique identifiers, the disk state
after replaying the run's file operations holds exactly batches 1..count of
the merged sequence: batch n stores the identifiers of chunk n-1, no file
exists at number 0 or above the count, every batch except possibly the last
has exactly BATCH_SIZE members, and concatenating the members of all output
batch files in index order reproduces the merged — sorted, duplicate-free —
identifier sequence of all known records. -/
theorem C1_coverage (parseTs : String → Int) (formatTs : Int → String)
    (tm td ns : String) (files : List (Nat × String)) (st : String)
    (incoming : List Incoming) (now : Int) (raw : String)
    (entries merged : List IssueEntry) (assoc : List (Nat × List String))
    (hwm : locateWatermark linearLabel st = some raw)
    (hload : loadAll files = .ok (entries, assoc))
    (hassoc : assoc = batchAssocOf entries)
    (hsorted : sortedByKey entries)
    (hnodup : (entriesIds entries).Nodup)
    (hmerged : merged = (mergeAll (parseTs raw) entries incoming).entries) :
    sortedByKey merged ∧
    (entriesIds merged).Nodup ∧
    (∀ x, x ∈ entriesIds merged ↔
      x ∈ entriesIds entries ∨ x ∈ incoming.map (fun r => r.identifier)) ∧
    (∀ i b, (build_batches merged).get? i = some b →
      i + 1 < (build_batches merged).length → b.length = BATCH_SIZE) ∧
    (∀ n, 1 ≤ n → n ≤ (build_batches merged).length →
      applyOps (fun k => lookupNum assoc k)
          (runMain parseTs formatTs tm td ns files st incoming now).1 n =
        ((build_batches merged).get? (n - 1)).map entriesIds) ∧
    (∀ n, n = 0 ∨ (build_batches merged).length < n →
      applyOps (fun k => lookupNum assoc k)
          (runMain parseTs formatTs tm td ns files st incoming now).1 n = none) ∧
    ((List.range (build_batches merged).length).map (fun i =>
        (applyOps (fun k => lookupNum assoc k)
          (runMain parseTs formatTs tm td ns files st incoming now).1 (1 + i)).getD [])).flatten =
      entriesIds merged := by
  obtain ⟨i1, i2, i3, i4, i5, i6⟩ :=
    mergeAll_inv (parseTs raw) entries incoming hsorted hnodup
  subst hmerged
  have hrm := runMain_loaded parseTs formatTs tm td ns files st incoming now raw entries assoc
    hwm hload
  obtain ⟨tailops, hopseq, htail⟩ :
      ∃ tailops, (runMain parseTs formatTs tm td ns files st incoming now).1 =
        ((changedBatches (build_batches (mergeAll (parseTs raw) entries incoming).entries) assoc
            (mergeAll (parseTs raw) entries incoming).touched
            (mergeAll (parseTs raw) entries incoming).newIds).map
          (fun p => FileOp.writeBatch p.1 p.2 (render_batch tm ns p.1 p.2)) ++
          (deleteNums assoc
            (build_batches (mergeAll (parseTs raw) entries incoming).entries).length).map
            FileOp.deleteBatch ++ tailops) ∧
        (tailops = [] ∨ ∃ s, tailops = [FileOp.writeStatus s]) := by
    rw [hrm, runCore_eq]
    cases hupd : linearUpdateStatusDoc ((splitLinesC st.data).map String.mk)
        (formatTs (max (mergeAll (parseTs raw) entries incoming).latest now))
        (summarize_changes td (mergeAll (parseTs raw) entries incoming).touched
          (mergeAll (parseTs raw) entries incoming).newIds
          ((changedBatches (build_batches (mergeAll (parseTs raw) entries incoming).entries) assoc
            (mergeAll (parseTs raw) entries incoming).touched
            (mergeAll (parseTs raw) entries incoming).newIds).map Prod.fst)) with
    | error e => exact ⟨[], by simp, Or.inl rfl⟩
    | ok out => exact ⟨[FileOp.writeStatus (joinLinesNl out)], by simp, Or.inr ⟨_, rfl⟩⟩
  have hdiskeq : ∀ n, applyOps (fun k => lookupNum assoc k)
      (runMain parseTs formatTs tm td ns files st incoming now).1 n =
      applyOps (applyOps (fun k => lookupNum assoc k)
        ((changedBatches (build_batches (mergeAll (parseTs raw) entries incoming).entries) assoc
            (mergeAll (parseTs raw) entries incoming).touched
            (mergeAll (parseTs raw) entries incoming).newIds).map
          (fun p => FileOp.writeBatch p.1 p.2 (render_batch tm ns p.1 p.2))))
        ((deleteNums assoc
          (build_batches (mergeAll (parseTs raw) entries incoming).entries).length).map
          FileOp.deleteBatch) n := by
    intro n
    rw [hopseq, applyOps_append, applyOps_append]
    rcases htail with rfl | ⟨s, rfl⟩
    · rfl
    · rfl
  have h5 : ∀ n, 1 ≤ n → n ≤ (build_batches (mergeAll (parseTs raw) entries incoming).entries).length →
      applyOps (fun k => lookupNum assoc k)
          (runMain parseTs formatTs tm td ns files st incoming now).1 n =
        ((build_batches (mergeAll (parseTs raw) entries incoming).entries).get? (n - 1)).map
          entriesIds := by
    intro n h1 h2
    rw [hdiskeq]
    have hbne : (build_batches (mergeAll (parseTs raw) entries incoming).entries).get? (n - 1) ≠
        none := by
      intro hc
      rw [List.get?_eq_none] at hc
      omega
    cases hbe : (build_batches (mergeAll (parseTs raw) entries incoming).entries).get? (n - 1) with
    | none => exact absurd hbe hbne
    | some b =>
      have hndel : n ∉ deleteNums assoc
          (build_batches (mergeAll (parseTs raw) entries incoming).entries).length := by
        rw [deleteNums_mem_iff]
        rintro ⟨_, hgt⟩
        omega
      rw [applyOps_deletes, if_neg hndel]
      by_cases hch : batchChanged assoc (mergeAll (parseTs raw) entries incoming).touched
          (mergeAll (parseTs raw) entries incoming).newIds n b
      · have hmem : (n, b) ∈ changedBatches
            (build_batches (mergeAll (parseTs raw) entries incoming).entries) assoc
            (mergeAll (parseTs raw) entries incoming).touched
            (mergeAll (parseTs raw) entries incoming).newIds := by
          rw [changedBatches, changedBatchesGo_mem_iff]
          refine ⟨n - 1, hbe, by omega, ?_⟩
          exact hch
        rw [applyOps_writes_mem (fun p => render_batch tm ns p.1 p.2) _ _ n b
          (by rw [changedBatches]; exact changedBatchesGo_fst_nodup assoc _ _ _ 1) hmem]
        rfl
      · have hnin : n ∉ (changedBatches
            (build_batches (mergeAll (parseTs raw) entries incoming).entries) assoc
            (mergeAll (parseTs raw) entries incoming).touched
            (mergeAll (parseTs raw) entries incoming).newIds).map Prod.fst := by
          intro hmem
          obtain ⟨p, hp, hpk⟩ := List.mem_map.mp hmem
          obtain ⟨pn, pb⟩ := p
          rw [changedBatches, changedBatchesGo_mem_iff] at hp
          obtain ⟨i, hget, hpeq, hchg⟩ := hp
          have hieq : i = n - 1 := by
            simp only at hpk
            omega
          rw [hieq, hbe] at hget
          obtain rfl := Option.some.inj hget
          have hneq : pn = n := by
            simp only at hpk
            exact hpk
          rw [hneq] at hchg
          exact hch hchg
        rw [applyOps_writes_notin (fun p => render_batch tm ns p.1 p.2) _ _ n hnin]
        show lookupNum assoc n = (some b).map entriesIds
        have hids : entriesIds b = (lookupNum assoc n).getD [] := by
          by_contra hne
          exact hch (Or.inl hne)
        have hlenb : 0 < b.length := by
          rw [build_batches_eq_chunksTD, chunksTD_get?] at hbe
          by_cases hcnd : BATCH_SIZE * (n - 1) <
              (mergeAll (parseTs raw) entries incoming).entries.length
          · rw [if_pos hcnd] at hbe
            have hbeq : ((mergeAll (parseTs raw) entries incoming).entries.drop
                (BATCH_SIZE * (n - 1))).take BATCH_SIZE = b := Option.some.inj hbe
            rw [← hbeq, List.length_take, List.length_drop]
            have hB : BATCH_SIZE = 50 := rfl
            rw [hB] at hcnd ⊢
            rw [Nat.min_def]
            by_cases hm : 50 ≤ (mergeAll (parseTs raw) entries incoming).entries.length -
                50 * (n - 1)
            · rw [if_pos hm]
              omega
            · rw [if_neg hm]
              omega
          · rw [if_neg hcnd] at hbe
            simp at hbe
        have hbnil : entriesIds b ≠ [] := by
          intro hc
          have hlc := congrArg List.length hc
          simp only [entriesIds, List.length_map, List.length_nil] at hlc
          omega
        cases hlk : lookupNum assoc n with
        | none =>
          rw [hlk] at hids
          simp at hids
          exact absurd hids hbnil
        | some ids =>
          rw [hlk] at hids
          simp only [Option.getD_some] at hids
          rw [Option.map_some', ← hids]
  have h6 : ∀ n, n = 0 ∨
      (build_batches (mergeAll (parseTs raw) entries incoming).entries).length < n →
      applyOps (fun k => lookupNum assoc k)
          (runMain parseTs formatTs tm td ns files st incoming now).1 n = none := by
    intro n hn
    rw [hdiskeq]
    have hnin : n ∉ (changedBatches
        (build_batches (mergeAll (parseTs raw) entries incoming).entries) assoc
        (mergeAll (parseTs raw) entries incoming).touched
        (mergeAll (parseTs raw) entries incoming).newIds).map Prod.fst := by
      intro hmem
      obtain ⟨p, hp, hpk⟩ := List.mem_map.mp hmem
      obtain ⟨pn, pb⟩ := p
      rw [changedBatches, changedBatchesGo_mem_iff] at hp
      obtain ⟨i, hget, hpeq, _⟩ := hp
      have hilt : i < (build_batches (mergeAll (parseTs raw) entries incoming).entries).length :=
        (List.get?_eq_some.mp hget).1
      simp only at hpk
      omega
    rw [applyOps_deletes,
      applyOps_writes_notin (fun p => render_batch tm ns p.1 p.2) _ _ n hnin]
    by_cases hd : n ∈ deleteNums assoc
        (build_batches (mergeAll (parseTs raw) entries incoming).entries).length
    · rw [if_pos hd]
    · rw [if_neg hd]
      refine lookupNum_eq_none_of assoc n ?_
      intro hmem
      rcases hn with rfl | hgt
      · rw [hassoc, batchAssocOf] at hmem
        obtain ⟨p, hp, hpk⟩ := List.mem_map.mp hmem
        have := batchAssocGo_fst_bounds (build_batches entries) 1 p hp
        omega
      · exact hd ((deleteNums_mem_iff assoc _ n).mpr ⟨hmem, hgt⟩)
  refine ⟨i1, i2, ?_, ?_, h5, h6, ?_⟩
  · intro x
    rw [mergeAll]
    exact foldl_mergeStep_ids_iff incoming ⟨entries, [], [], parseTs raw⟩ x
  · exact fun i b hb hi => build_batches_length_full _ i b hb hi
  · have hmapc : ∀ i ∈ List.range
        (build_batches (mergeAll (parseTs raw) entries incoming).entries).length,
        (applyOps (fun k => lookupNum assoc k)
            (runMain parseTs formatTs tm td ns files st incoming now).1 (1 + i)).getD [] =
          (((build_batches (mergeAll (parseTs raw) entries incoming).entries).get? i).map
            entriesIds).getD [] := by
      intro i hi
      have hilt := List.mem_range.mp hi
      rw [h5 (1 + i) (by omega) (by omega)]
      have h1i : 1 + i - 1 = i := by omega
      rw [h1i]
    rw [List.map_congr_left hmapc, range_map_get?_ids, entriesIds_flatten,
      build_batches_eq_chunksTD,
      chunksTD_flatten ((mergeAll (parseTs raw) entries incoming).entries.length) _ (le_refl _)]

/-- Witness for C1 at a concrete input: a one-batch baseline `[A-1]` and one
genuinely new incoming record `B-2`; after the run the single output batch
holds `A-1` then `B-2`, which is the merged identifier sequence. -/
theorem C1_coverage_witness :
    locateWatermark linearLabel ("`lastSyncTimestamp`: 1Z\n## Daily Summaries\n- old") =
      some ("1") ∧
    loadAll [((1 : Nat), ("H\n---\n\n# A-1: t\nx\n---\n\n" : String))] =
      .ok ([(⟨"A-1", "# A-1: t\nx\n---\n\n"⟩ : IssueEntry)], [(1, ["A-1"])]) ∧
    sortedByKey [(⟨"A-1", "# A-1: t\nx\n---\n\n"⟩ : IssueEntry)] ∧
    ((List.range (build_batches (mergeAll 0 [(⟨"A-1", "# A-1: t\nx\n---\n\n"⟩ : IssueEntry)]
        [⟨"B-2", "# B-2: n\n---\n\n", 7⟩]).entries).length).map (fun i =>
        (applyOps (fun k => lookupNum [(1, ["A-1"])] k)
          (runMain (fun _ => (0 : Int)) (fun t => toString t) ("T") ("D") ("N")
            [((1 : Nat), ("H\n---\n\n# A-1: t\nx\n---\n\n" : String))]
            ("`lastSyncTimestamp`: 1Z\n## Daily Summaries\n- old")
            [⟨"B-2", "# B-2: n\n---\n\n", 7⟩] 5).1 (1 + i)).getD [])).flatten =
      entriesIds (mergeAll 0 [(⟨"A-1", "# A-1: t\nx\n---\n\n"⟩ : IssueEntry)]
        [⟨"B-2", "# B-2: n\n---\n\n", 7⟩]).entries :=
  ⟨by decide, by decide, by decide,
    (C1_coverage (fun _ => (0 : Int)) (fun t => toString t) ("T") ("D") ("N")
      [((1 : Nat), ("H\n---\n\n# A-1: t\nx\n---\n\n" : String))]
      ("`lastSyncTimestamp`: 1Z\n## Daily Summaries\n- old")
      [⟨"B-2", "# B-2: n\n---\n\n", 7⟩] 5 ("1")
      [(⟨"A-1", "# A-1: t\nx\n---\n\n"⟩ : IssueEntry)]
      ((mergeAll 0 [(⟨"A-1", "# A-1: t\nx\n---\n\n"⟩ : IssueEntry)]
        [⟨"B-2", "# B-2: n\n---\n\n", 7⟩]).entries)
      [(1, ["A-1"])]
      (by decide) (by decide) (by decide) (by decide) (by decide) rfl).2.2.2.2.2.2⟩

/-! ## Claim C8: render/parse round trip of a batch file -/

theorem isSuffixOfC_iff (p l : List Char) : isSuffixOfC p l = true ↔ ∃ t, l = t ++ p := by
  rw [isSuffixOfC, isPrefixOfC_iff]
  constructor
  · rintro ⟨t, ht⟩
    refine ⟨t.reverse, ?_⟩
    have := congrArg List.reverse ht
    simpa using this
  · rintro ⟨t, rfl⟩
    exact ⟨t.reverse, by simp⟩

theorem isSuffixOfC_cons_mono (p : List Char) (c : Char) (t : List Char)
    (h : isSuffixOfC p (c :: t) = false) : isSuffixOfC p t = false := by
  cases hs : isSuffixOfC p t with
  | false => rfl
  | true =>
    obtain ⟨u, rfl⟩ := (isSuffixOfC_iff p t).mp hs
    have : isSuffixOfC p (c :: (u ++ p)) = true :=
      (isSuffixOfC_iff p _).mpr ⟨c :: u, rfl⟩
    rw [this] at h
    exact Bool.noConfusion h

theorem dropWhile_head_not (p : Char → Bool) : ∀ (l : List Char) (c : Char) (cs : List Char),
    l.dropWhile p = c :: cs → p c = false := by
  intro l
  induction l with
  | nil => intro c cs h; simp [List.dropWhile] at h
  | cons a t ih =>
    intro c cs h
    rw [List.dropWhile_cons] at h
    by_cases ha : p a = true
    · rw [if_pos ha] at h
      exact ih c cs h
    · rw [if_neg ha] at h
      obtain ⟨rfl, _⟩ := List.cons.inj h
      exact Bool.of_not_eq_true ha

theorem stripped_no_nl_suffix (s : List Char) (h : stripC s = s) :
    isSuffixOfC ['\n', '-', '-', '-', '\n'] s = false := by
  cases hs : isSuffixOfC ['\n', '-', '-', '-', '\n'] s with
  | false => rfl
  | true =>
    exfalso
    obtain ⟨t, hts⟩ := (isSuffixOfC_iff _ s).mp hs
    have hrev : s.reverse = '\n' :: ('-' :: '-' :: '-' :: '\n' :: t.reverse) := by
      rw [hts]
      simp
    have hsr : s = rstripC (lstripC s) := h.symm
    have hsrev : s.reverse = (lstripC s).reverse.dropWhile pyIsSpace := by
      conv_lhs => rw [hsr]
      rw [rstripC, List.reverse_reverse]
    have := dropWhile_head_not pyIsSpace ((lstripC s).reverse) '\n'
      ('-' :: '-' :: '-' :: '\n' :: t.reverse) (by rw [← hsrev, hrev])
    simp [pyIsSpace] at this

theorem no_nl_no_nl_suffix (l : List Char) (h : ∀ c ∈ l, c ≠ '\n') :
    isSuffixOfC ['\n'] l = false := by
  cases hs : isSuffixOfC ['\n'] l with
  | false => rfl
  | true =>
    exfalso
    obtain ⟨t, rfl⟩ := (isSuffixOfC_iff _ l).mp hs
    exact h '\n' (by simp) rfl

theorem pair_split : ∀ (x y u v : List Char), x ++ y = u ++ '\n' :: '-' :: v →
    (∃ u' v', x = u' ++ '\n' :: '-' :: v') ∨ (∃ u' v', y = u' ++ '\n' :: '-' :: v') ∨
    ((∃ x', x = x' ++ ['\n']) ∧ (∃ y', y = '-' :: y')) := by
  intro x y u v h
  rcases List.append_eq_append_iff.mp h with ⟨a, _, ha2⟩ | ⟨c, hc1, hc2⟩
  · exact Or.inr (Or.inl ⟨a, v, ha2⟩)
  · cases c with
    | nil =>
      refine Or.inr (Or.inl ⟨[], v, ?_⟩)
      simp only [List.nil_append] at hc2 ⊢
      exact hc2.symm
    | cons a c1 =>
      injection hc2 with ha hrest
      cases c1 with
      | nil =>
        refine Or.inr (Or.inr ⟨⟨u, ?_⟩, ⟨v, hrest.symm⟩⟩)
        rw [hc1, ← ha]
      | cons b c2 =>
        injection hrest with hb hrest2
        refine Or.inl ⟨u, c2, ?_⟩
        rw [hc1, ← ha, ← hb]

theorem containsSeq_pair_false_of_no_nl (l : List Char) (h : ∀ c ∈ l, c ≠ '\n') :
    containsSeq ['\n', '-'] l = false := by
  induction l with
  | nil => rfl
  | cons c cs ih =>
    rw [containsSeq]
    have h1 : isPrefixOfC ['\n', '-'] (c :: cs) = false := by
      rw [isPrefixOfC]
      rw [show (('\n' == c) = false) from beq_eq_false_iff_ne.mpr (h c (by simp)).symm]
      rw [Bool.false_and]
    rw [h1, Bool.false_or]
    exact ih (fun a ha => h a (by simp [ha]))

theorem containsSeq_pair_append (x y : List Char)
    (hx : containsSeq ['\n', '-'] x = false)
    (hy : containsSeq ['\n', '-'] y = false)
    (hb : isSuffixOfC ['\n'] x = false ∨ isPrefixOfC ['-'] y = false) :
    containsSeq ['\n', '-'] (x ++ y) = false := by
  cases hres : containsSeq ['\n', '-'] (x ++ y) with
  | false => rfl
  | true =>
    exfalso
    obtain ⟨u, v, huv⟩ := (containsSeq_iff _ _).mp hres
    have huv2 : x ++ y = u ++ '\n' :: '-' :: v := by simpa using huv
    rcases pair_split x y u v huv2 with ⟨u', v', hx'⟩ | ⟨u', v', hy'⟩ | ⟨⟨x', hx'⟩, ⟨y', hy'⟩⟩
    · have : containsSeq ['\n', '-'] x = true :=
        (containsSeq_iff _ _).mpr ⟨u', v', by simpa using hx'⟩
      rw [this] at hx
      exact Bool.noConfusion hx
    · have : containsSeq ['\n', '-'] y = true :=
        (containsSeq_iff _ _).mpr ⟨u', v', by simpa using hy'⟩
      rw [this] at hy
      exact Bool.noConfusion hy
    · rcases hb with hb | hb
      · have : isSuffixOfC ['\n'] x = true := (isSuffixOfC_iff _ _).mpr ⟨x', hx'⟩
        rw [this] at hb
        exact Bool.noConfusion hb
      · have : isPrefixOfC ['-'] y = true := by
          rw [hy', isPrefixOfC]
          simp [isPrefixOfC]
        rw [this] at hb
        exact Bool.noConfusion hb

theorem containsSeq_delim_false_of_pair (l : List Char)
    (h : containsSeq ['\n', '-'] l = false) : containsSeq delimChars l = false := by
  cases hc : containsSeq delimChars l with
  | false => rfl
  | true =>
    exfalso
    obtain ⟨u, v, rfl⟩ := (containsSeq_iff _ _).mp hc
    have : containsSeq ['\n', '-'] (u ++ delimChars ++ v) = true := by
      refine (containsSeq_iff _ _).mpr ⟨u, ['-', '-', '\n', '\n'] ++ v, ?_⟩
      simp [delimChars]
    rw [this] at h
    exact Bool.noConfusion h

theorem digitChar_ne_nl (m : Nat) : Nat.digitChar m ≠ '\n' := by
  match m with
  | 0 => decide
  | 1 => decide
  | 2 => decide
  | 3 => decide
  | 4 => decide
  | 5 => decide
  | 6 => decide
  | 7 => decide
  | 8 => decide
  | 9 => decide
  | 10 => decide
  | 11 => decide
  | 12 => decide
  | 13 => decide
  | 14 => decide
  | 15 => decide
  | n + 16 =>
    unfold Nat.digitChar
    repeat rw [if_neg (by omega)]
    decide

theorem toDigitsCore_ne_nl : ∀ (fuel n : Nat) (ds : List Char),
    (∀ c ∈ ds, c ≠ '\n') → ∀ c ∈ Nat.toDigitsCore 10 fuel n ds, c ≠ '\n' := by
  intro fuel
  induction fuel with
  | zero => intro n ds h; simpa [Nat.toDigitsCore] using h
  | succ f ih =>
    intro n ds h
    rw [Nat.toDigitsCore]
    have hd : ∀ c ∈ (Nat.digitChar (n % 10) :: ds), c ≠ '\n' := by
      intro c hc
      rcases List.mem_cons.mp hc with rfl | hc2
      · exact digitChar_ne_nl _
      · exact h c hc2
    split
    · exact hd
    · exact ih (n / 10) _ hd

theorem toString_nat_ne_nl (n : Nat) : ∀ c ∈ (toString n).data, c ≠ '\n' := by
  intro c hc
  have hdata : (toString n).data = Nat.toDigitsCore 10 (n + 1) n [] := rfl
  rw [hdata] at hc
  exact toDigitsCore_ne_nl (n + 1) n [] (by simp) c hc

theorem foldl_strAppend_data : ∀ (l : List String) (s : String),
    (l.foldl (fun a b => a ++ b) s).data = s.data ++ (l.map String.data).flatten := by
  intro l
  induction l with
  | nil => intro s; simp
  | cons a t ih =>
    intro s
    rw [List.foldl_cons, ih (s ++ a), List.map_cons, List.flatten_cons,
      String.data_append, List.append_assoc]

theorem data_join (l : List String) :
    (String.join l).data = (l.map String.data).flatten := by
  have : String.join l = l.foldl (fun a b => a ++ b) "" := rfl
  rw [this, foldl_strAppend_data]
  rfl

theorem containsSeq_cons_false (sep : List Char) (c : Char) (cs : List Char)
    (h : containsSeq sep (c :: cs) = false) : containsSeq sep cs = false := by
  rw [containsSeq, Bool.or_eq_false_iff] at h
  exact h.2

theorem delim_boundary_prefix_false (c : Char) (t' rest : List Char)
    (hc : containsSeq delimChars (c :: t') = false)
    (hs : isSuffixOfC ['\n', '-', '-', '-', '\n'] (c :: t') = false) :
    isPrefixOfC delimChars (c :: (t' ++ (delimChars ++ rest))) = false := by
  have hpf : isPrefixOfC delimChars (c :: t') = false := by
    rw [containsSeq, Bool.or_eq_false_iff] at hc
    exact hc.1
  have e1 : (('-' : Char) == '\n') = false := by decide
  have e2 : (('\n' : Char) == '-') = false := by decide
  match t' with
  | [] =>
    simp only [delimChars, List.nil_append, List.cons_append, isPrefixOfC, e1, e2,
      Bool.false_and, Bool.and_false]
  | [b] =>
    simp only [delimChars, List.nil_append, List.cons_append, isPrefixOfC, e1, e2,
      Bool.false_and, Bool.and_false]
  | [b, d] =>
    simp only [delimChars, List.nil_append, List.cons_append, isPrefixOfC, e1, e2,
      Bool.false_and, Bool.and_false]
  | [b, d, e] =>
    simp only [delimChars, List.nil_append, List.cons_append, isPrefixOfC, e1, e2,
      Bool.false_and, Bool.and_false]
  | [b, d, e, f] =>
    cases hres : isPrefixOfC delimChars (c :: ([b, d, e, f] ++ (delimChars ++ rest))) with
    | false => rfl
    | true =>
      exfalso
      simp only [delimChars, List.cons_append, List.nil_append, isPrefixOfC,
        Bool.and_eq_true, beq_iff_eq, beq_self_eq_true, Bool.and_true, and_true] at hres
      obtain ⟨h1, h2, h3, h4, h5⟩ := hres
      subst h1
      subst h2
      subst h3
      subst h4
      subst h5
      exact absurd hs (by decide)
  | b :: d :: e :: f :: g :: t6 =>
    simp only [delimChars, isPrefixOfC, List.cons_append] at hpf ⊢
    exact hpf

theorem splitFirstSeq_delim : ∀ (t rest : List Char),
    containsSeq delimChars t = false →
    isSuffixOfC ['\n', '-', '-', '-', '\n'] t = false →
    splitFirstSeq delimChars (t ++ (delimChars ++ rest)) = some (t, rest) := by
  intro t
  induction t with
  | nil => intro rest _ _; rfl
  | cons c t' ih =>
    intro rest hc hs
    have hb := delim_boundary_prefix_false c t' rest hc hs
    rw [List.cons_append, splitFirstSeq]
    rw [if_neg (by rw [hb]; exact Bool.false_ne_true)]
    rw [ih rest (containsSeq_cons_false _ _ _ hc) (isSuffixOfC_cons_mono _ _ _ hs)]
    rfl

theorem splitSeqGo_delim : ∀ (t rest acc : List Char),
    containsSeq delimChars t = false →
    isSuffixOfC ['\n', '-', '-', '-', '\n'] t = false →
    splitSeqGo delimChars (t ++ (delimChars ++ rest)) 0 acc =
      (acc.reverse ++ t) :: splitSeqGo delimChars rest 0 [] := by
  intro t
  induction t with
  | nil =>
    intro rest acc _ _
    simp only [List.nil_append, List.append_nil]
    rfl
  | cons c t' ih =>
    intro rest acc hc hs
    have hb := delim_boundary_prefix_false c t' rest hc hs
    rw [List.cons_append, splitSeqGo]
    rw [if_neg (by rw [hb]; exact Bool.false_ne_true)]
    rw [ih rest (c :: acc) (containsSeq_cons_false _ _ _ hc) (isSuffixOfC_cons_mono _ _ _ hs)]
    rw [List.reverse_cons, List.append_assoc]
    rfl

theorem rstripC_append_nonspace (x : List Char) (c : Char) (r : List Char)
    (hc : pyIsSpace c = false) :
    rstripC (x ++ c :: r) = x ++ c :: rstripC r := by
  rw [rstripC, rstripC]
  have hrev : (x ++ c :: r).reverse = r.reverse ++ c :: x.reverse := by
    simp
  rw [hrev, List.dropWhile_append]
  by_cases he : (r.reverse.dropWhile pyIsSpace).isEmpty = true
  · rw [if_pos he, List.dropWhile_cons, hc]
    rw [if_neg Bool.false_ne_true]
    rw [List.isEmpty_iff] at he
    rw [he]
    simp
  · rw [if_neg he]
    simp

theorem parseBlock_canonical (e : IssueEntry) (s rest : List Char)
    (hcontent : e.content.data = s ++ delimChars)
    (hstrip : stripC s = s)
    (hshape : s = '#' :: ' ' :: (e.identifier.data ++ ':' :: rest))
    (hident : ∀ c ∈ e.identifier.data, c ≠ ':' ∧ isLineBreak c = false)
    (histrip : stripC e.identifier.data = e.identifier.data) :
    parseBlock s = some e := by
  simp only [parseBlock]
  rw [hstrip]
  have hne : s.isEmpty = false := by rw [hshape]; rfl
  rw [if_neg (by rw [hne]; exact Bool.false_ne_true)]
  have htake : s.takeWhile (fun c => !isLineBreak c) =
      '#' :: ' ' :: (e.identifier.data ++ ':' :: rest.takeWhile (fun c => !isLineBreak c)) := by
    conv_lhs => rw [hshape]
    rw [List.takeWhile_cons, if_pos (by decide)]
    rw [List.takeWhile_cons, if_pos (by decide)]
    rw [takeWhile_append_of_all (fun c => !isLineBreak c) e.identifier.data _
      (fun a ha => by show (!isLineBreak a) = true; rw [(hident a ha).2]; rfl)]
    rw [List.takeWhile_cons, if_pos (by decide)]
  have hfl : stripC (s.takeWhile (fun c => !isLineBreak c)) =
      '#' :: ' ' :: (e.identifier.data ++ ':' ::
        rstripC (rest.takeWhile (fun c => !isLineBreak c))) := by
    rw [htake, stripC, lstripC, List.dropWhile_cons]
    rw [if_neg (by rw [show pyIsSpace '#' = false from by decide]; exact Bool.false_ne_true)]
    have hre : ('#' :: ' ' :: (e.identifier.data ++ ':' ::
        rest.takeWhile (fun c => !isLineBreak c))) =
        ('#' :: ' ' :: e.identifier.data) ++ ':' ::
          rest.takeWhile (fun c => !isLineBreak c) := by
      simp
    rw [hre, rstripC_append_nonspace _ ':' _ (by decide)]
    simp
  rw [hfl]
  rw [if_pos (by simp [isPrefixOfC])]
  have hdrop : (('#' :: ' ' :: (e.identifier.data ++ ':' ::
      rstripC (rest.takeWhile (fun c => !isLineBreak c)))).drop 2) =
      e.identifier.data ++ ':' :: rstripC (rest.takeWhile (fun c => !isLineBreak c)) := rfl
  rw [hdrop]
  rw [takeWhile_append_of_all (fun c => c != ':') e.identifier.data _
    (fun a ha => bne_iff_ne.mpr (hident a ha).1)]
  rw [List.takeWhile_cons]
  rw [if_neg (by rw [show ((':' : Char) != ':') = false from by decide]; exact Bool.false_ne_true)]
  rw [List.append_nil, histrip, ← hcontent]

theorem filterMap_parse_bodies : ∀ (es : List IssueEntry), (∀ e ∈ es, CanonicalEntry e) →
    (splitSeq delimChars ((es.map (fun e => e.content.data)).flatten)).filterMap parseBlock =
      es := by
  intro es
  induction es with
  | nil => intro _; rfl
  | cons e es' ih =>
    intro h
    obtain ⟨s, rest, hcontent, hstrip, hnocc, hshape, hident, histrip⟩ := h e (by simp)
    rw [List.map_cons, List.flatten_cons, hcontent, List.append_assoc]
    rw [splitSeq]
    rw [splitSeqGo_delim s _ [] hnocc (stripped_no_nl_suffix s hstrip)]
    simp only [List.reverse_nil, List.nil_append]
    rw [List.filterMap_cons_some (parseBlock_canonical e s rest hcontent hstrip hshape
      hident histrip)]
    rw [show splitSeqGo delimChars ((es'.map (fun e => e.content.data)).flatten) 0 [] =
      splitSeq delimChars ((es'.map (fun e => e.content.data)).flatten) from rfl]
    rw [ih (fun e' he' => h e' (by simp [he']))]

theorem isPrefixOfC_single_append (a : Char) (x z : List Char) (hx : x ≠ []) :
    isPrefixOfC [a] (x ++ z) = isPrefixOfC [a] x := by
  cases x with
  | nil => exact absurd rfl hx
  | cons b bs => simp [isPrefixOfC]

theorem isSuffixOf_ne_second_last (Y : List Char) :
    isSuffixOfC ['\n', '-', '-', '-', '\n'] (Y ++ ['_', '\n']) = false := by
  cases hs : isSuffixOfC ['\n', '-', '-', '-', '\n'] (Y ++ ['_', '\n']) with
  | false => rfl
  | true =>
    exfalso
    obtain ⟨t, ht⟩ := (isSuffixOfC_iff _ _).mp hs
    have hrev := congrArg List.reverse ht
    simp only [List.reverse_append, List.reverse_cons, List.reverse_nil, List.nil_append,
      List.append_assoc, List.cons_append] at hrev
    injection hrev with _ hrev2
    injection hrev2 with hbad _
    exact absurd hbad (by decide)

/-- Claim C8 counterexample: a body satisfying the claim's own precondition —
it begins with a `"# A-1: ..."` heading line and contains no internal
occurrence of the delimiter — but carrying a trailing space before the
separator; the round trip strips it, so the recovered body differs from the
original member. -/
theorem C8_exact_recovery_counterexample :
    parseBatchFileText (render_batch ("T") ("N") 1 [⟨"A-1", "# A-1: t \n---\n\n"⟩]) =
      some [⟨"A-1", "# A-1: t\n---\n\n"⟩] ∧
    ([(⟨"A-1", "# A-1: t\n---\n\n"⟩ : IssueEntry)] ≠ [⟨"A-1", "# A-1: t \n---\n\n"⟩]) ∧
    containsSeq delimChars ("# A-1: t ".data) = false :=
  ⟨by decide, by decide, by decide⟩

/-- Claim C8 (amended): for entries in the canonical shape the loader itself
produces — stripped body beginning with a `"# <identifier>: ..."` heading
line, no internal delimiter occurrence, the delimiter re-appended — parsing
the batch file rendered by `render_batch` (for a team name and timestamp
string free of newlines) recovers exactly those entries, identifiers and
bodies alike, in order; and a body that does contain the delimiter substring
internally corrupts parsing: its tail is split off and silently dropped, so
the round trip does not recover the original member. -/
theorem C8_render_parse_round_trip (tm ns : String) (idx : Nat) (es : List IssueEntry)
    (htm : ∀ c ∈ tm.data, c ≠ '\n')
    (hns : ∀ c ∈ ns.data, c ≠ '\n')
    (hes : ∀ e ∈ es, CanonicalEntry e) :
    parseBatchFileText (render_batch tm ns idx es) = some es ∧
    (parseBatchFileText (render_batch ("T") ("N") 1
        [⟨"A-1", "# A-1: t\n---\n\nEXTRA\n---\n\n"⟩]) =
      some [⟨"A-1", "# A-1: t\n---\n\n"⟩] ∧
    [(⟨"A-1", "# A-1: t\n---\n\n"⟩ : IssueEntry)] ≠
      [⟨"A-1", "# A-1: t\n---\n\nEXTRA\n---\n\n"⟩]) := by
  refine ⟨?_, by decide, by decide⟩
  have h3 : (("_\n" : String).data : List Char) = ['_', '\n'] := by decide
  have hdata : (render_batch tm ns idx es).data =
      ("# ".data ++ (tm.data ++ (" - Issue Batch ".data ++ ((toString idx).data ++
        ("\n\n".data ++ ("_Generated: ".data ++ (ns.data ++ "_\n".data))))))) ++
      (delimChars ++ (es.map (fun e => e.content.data)).flatten) := by
    rw [render_batch]
    simp only [String.data_append, data_join, List.map_map]
    have hfun : (String.data ∘ fun e : IssueEntry => e.content) =
        (fun e : IssueEntry => e.content.data) := rfl
    rw [hfun]
    have hsd : (("_\n\n" : String).data : List Char) ++ ((("---\n\n" : String).data : List Char) ++
        ((es.map (fun e => e.content.data)).flatten)) =
        (("_\n" : String).data : List Char) ++
          (delimChars ++ (es.map (fun e => e.content.data)).flatten) := by
      have h1 : (("_\n\n" : String).data : List Char) = ['_', '\n', '\n'] := by decide
      have h2 : (("---\n\n" : String).data : List Char) = ['-', '-', '-', '\n', '\n'] := by decide
      rw [h1, h2, h3, delimChars]
      simp
    simp only [List.append_assoc]
    rw [hsd]
  have hH0 : containsSeq ['\n', '-'] ("# ".data ++ (tm.data ++ (" - Issue Batch ".data ++
      ((toString idx).data ++ ("\n\n".data ++ ("_Generated: ".data ++
        (ns.data ++ "_\n".data))))))) = false := by
    refine containsSeq_pair_append _ _ (by decide) ?_ (Or.inl (by decide))
    refine containsSeq_pair_append _ _ (containsSeq_pair_false_of_no_nl _ htm) ?_
      (Or.inr (by
        rw [isPrefixOfC_single_append '-' (" - Issue Batch ".data) _ (by decide)]
        decide))
    refine containsSeq_pair_append _ _ (by decide) ?_ (Or.inl (by decide))
    refine containsSeq_pair_append _ _
      (containsSeq_pair_false_of_no_nl _ (toString_nat_ne_nl idx)) ?_
      (Or.inr (by
        rw [isPrefixOfC_single_append '-' (("\n\n" : String).data) _ (by decide)]
        decide))
    refine containsSeq_pair_append _ _ (by decide) ?_
      (Or.inr (by
        rw [isPrefixOfC_single_append '-' (("_Generated: " : String).data) _ (by decide)]
        decide))
    refine containsSeq_pair_append _ _ (by decide) ?_ (Or.inl (by decide))
    exact containsSeq_pair_append _ _ (containsSeq_pair_false_of_no_nl _ hns) (by decide)
      (Or.inl (no_nl_no_nl_suffix _ hns))
  have hH0d := containsSeq_delim_false_of_pair _ hH0
  have hH0s : isSuffixOfC ['\n', '-', '-', '-', '\n'] ("# ".data ++ (tm.data ++
      (" - Issue Batch ".data ++ ((toString idx).data ++ ("\n\n".data ++
        ("_Generated: ".data ++ (ns.data ++ "_\n".data))))))) = false := by
    rw [h3]
    simp only [← List.append_assoc]
    exact isSuffixOf_ne_second_last _
  rw [parseBatchFileText, hdata, splitFirstSeq_delim _ _ hH0d hH0s]
  dsimp only
  rw [filterMap_parse_bodies es hes]

theorem C8_render_parse_round_trip_witness :
    (∀ c ∈ ("T" : String).data, c ≠ '\n') ∧
    (∀ c ∈ ("N" : String).data, c ≠ '\n') ∧
    (parseBatchFileText (render_batch ("T") ("N") 1 [⟨"A-1", "# A-1: t\nx\n---\n\n"⟩]) =
        some [(⟨"A-1", "# A-1: t\nx\n---\n\n"⟩ : IssueEntry)] ∧
      (parseBatchFileText (render_batch ("T") ("N") 1
          [⟨"A-1", "# A-1: t\n---\n\nEXTRA\n---\n\n"⟩]) =
        some [⟨"A-1", "# A-1: t\n---\n\n"⟩] ∧
      [(⟨"A-1", "# A-1: t\n---\n\n"⟩ : IssueEntry)] ≠
        [⟨"A-1", "# A-1: t\n---\n\nEXTRA\n---\n\n"⟩])) :=
  ⟨by decide, by decide,
    C8_render_parse_round_trip ("T") ("N") 1 [⟨"A-1", "# A-1: t\nx\n---\n\n"⟩]
      (by decide) (by decide)
      (by
        intro e he
        rw [List.mem_singleton] at he
        subst he
        exact ⟨"# A-1: t\nx".data, " t\nx".data, by decide, by decide, by decide, by decide,
          by decide, by decide⟩)⟩

end PMSync
